import Mathlib

/-!
Verification development for the external radix-sort BFS layer pipeline of
`cmd/puzzledistext.c` and the pattern-database header `pdb.h` of the
24-puzzle enumeration program.

The shallow embedding models the C data as follows: 64-bit machine words
become `Nat` (the packing functions only produce values below `2 ^ 64`,
and wherever overflow or complement matters the width is made explicit);
on-disk record streams become `List compact_puzzle`; the set of 25 radix
bucket files of one round becomes a length-25 `List (List compact_puzzle)`;
fallible C library calls are modelled by explicit outcome arguments and
`Except` results.  Functions whose C source is in `cmd/puzzledistext.c` or
`pdb.h` are translated directly; helpers declared in headers that are not
part of the sources (`compact.h`, `puzzle.h`, `index.h`) are modelled from
the specification and marked as such in their doc comments.
-/

/-- Number of grid cells / tiles of the 5x5 puzzle (TILE_COUNT). -/
def TILE_COUNT : Nat := 25

/-- Modelled from the spec: `MOVE_MASK` (declared in `compact.h`, which is
not among the sources) delimits the move-exclusion mask field stored in the
low bits of the `lo` half of a compact puzzle.  The blank has at most four
moves, so the mask field is the low four bits, `MOVE_MASK = 0xf`. -/
def MOVE_MASK : Nat := 15

/-- Value of the C expression `~MOVE_MASK` after conversion to the 64-bit
unsigned type of the `lo` field: all bits of the word except the mask bits. -/
def NOT_MOVE_MASK : Nat := 2 ^ 64 - 16

/-- The C `struct compact_puzzle` (declared in `compact.h`): the two 64-bit
halves `hi` and `lo` of the bit-packed puzzle.  Per the spec the 25 tile
locations are packed five bits each, the mask field sits in the low bits of
`lo` below the `MOVE_MASK` boundary, and `hi` depends only on tile
positions. -/
structure compact_puzzle where
  hi : Nat
  lo : Nat
deriving DecidableEq

/-- Guard of the coalesce loop (puzzledistext.c line 140): the two records
represent the same configuration, i.e. equal `hi` and `lo` agreeing outside
the mask bits. -/
def sameConfig (a b : compact_puzzle) : Prop :=
  a.hi = b.hi ∧ (a.lo ^^^ b.lo) &&& NOT_MOVE_MASK = 0

instance (a b : compact_puzzle) : Decidable (sameConfig a b) := by
  unfold sameConfig; infer_instance

/-- Merge step of coalesce (line 141): `a.lo |= b.lo`. -/
def mergeCP (a b : compact_puzzle) : compact_puzzle :=
  ⟨a.hi, a.lo ||| b.lo⟩

/-- Loop of `coalesce` (puzzledistext.c lines 139-148).  The accumulator `a`
holds the current record; each following record `b` is merged into `a` when
it has the same configuration, otherwise `a` is emitted and `b` becomes the
accumulator; at end of input the final accumulator is emitted. -/
def coalesceGo (a : compact_puzzle) : List compact_puzzle → List compact_puzzle
  | [] => [a]
  | b :: l =>
    if sameConfig a b then coalesceGo (mergeCP a b) l
    else a :: coalesceGo b l

/-- The function `coalesce` (puzzledistext.c lines 130-149): when the first
read hits end of file nothing is written; otherwise the loop above runs. -/
def coalesce : List compact_puzzle → List compact_puzzle
  | [] => []
  | a :: l => coalesceGo a l

/-- The configuration a record represents: the `hi` half together with the
bits of `lo` outside the mask field. -/
def config (cp : compact_puzzle) : Nat × Nat :=
  (cp.hi, cp.lo &&& NOT_MOVE_MASK)

theorem xor_and_eq_zero_iff (x y m : Nat) :
    (x ^^^ y) &&& m = 0 ↔ x &&& m = y &&& m := by
  rw [Nat.and_xor_distrib_right]
  constructor
  · intro h
    have h2 := congrArg (fun t => t ^^^ (y &&& m)) h
    simpa [Nat.xor_assoc] using h2
  · intro h
    rw [h, Nat.xor_self]

theorem natOrAndRight (x y m : Nat) :
    (x ||| y) &&& m = (x &&& m) ||| (y &&& m) := by
  rw [Nat.and_comm, Nat.and_or_distrib_left, Nat.and_comm m x, Nat.and_comm m y]

theorem sameConfig_iff (a b : compact_puzzle) :
    sameConfig a b ↔ config a = config b := by
  unfold sameConfig config
  rw [xor_and_eq_zero_iff, Prod.mk.injEq]

theorem config_mergeCP (a b : compact_puzzle) (h : sameConfig a b) :
    config (mergeCP a b) = config a := by
  obtain ⟨h1, h2⟩ := h
  rw [xor_and_eq_zero_iff] at h2
  unfold config mergeCP
  simp only [natOrAndRight, h2, Nat.or_self]

theorem coalesceGo_length_pos (l : List compact_puzzle) (a : compact_puzzle) :
    1 ≤ (coalesceGo a l).length := by
  induction l generalizing a with
  | nil => simp [coalesceGo]
  | cons b l ih =>
    by_cases h : sameConfig a b
    · rw [coalesceGo, if_pos h]; exact ih _
    · rw [coalesceGo, if_neg h]; simp

theorem coalesceGo_mem_config (l : List compact_puzzle) (a : compact_puzzle)
    (c : Nat × Nat) :
    (c ∈ (coalesceGo a l).map config ↔ c ∈ ((a :: l).map config)) := by
  induction l generalizing a with
  | nil => simp [coalesceGo]
  | cons b l ih =>
    by_cases h : sameConfig a b
    · rw [coalesceGo, if_pos h, ih]
      have hc := config_mergeCP a b h
      have hab := (sameConfig_iff a b).mp h
      simp only [List.map_cons, List.mem_cons, hc, ← hab]
      tauto
    · rw [coalesceGo, if_neg h]
      simp only [List.map_cons, List.mem_cons, ih, List.map_cons, List.mem_cons]

theorem coalesceGo_head (l : List compact_puzzle) (a : compact_puzzle) :
    ∃ c t, coalesceGo a l = c :: t ∧ config c = config a := by
  induction l generalizing a with
  | nil => exact ⟨a, [], rfl, rfl⟩
  | cons b l ih =>
    by_cases h : sameConfig a b
    · obtain ⟨c, t, he, hc⟩ := ih (mergeCP a b)
      refine ⟨c, t, ?_, ?_⟩
      · rw [coalesceGo, if_pos h, he]
      · rw [hc, config_mergeCP a b h]
    · exact ⟨a, coalesceGo b l, by rw [coalesceGo, if_neg h], rfl⟩

theorem coalesceGo_chain (l : List compact_puzzle) (a : compact_puzzle) :
    List.Chain' (fun x y => ¬ sameConfig x y) (coalesceGo a l) := by
  induction l generalizing a with
  | nil => simp [coalesceGo]
  | cons b l ih =>
    by_cases h : sameConfig a b
    · rw [coalesceGo, if_pos h]; exact ih _
    · rw [coalesceGo, if_neg h]
      obtain ⟨c, t, he, hc⟩ := coalesceGo_head l b
      rw [he, List.chain'_cons]
      refine ⟨?_, he ▸ ih b⟩
      intro hac
      apply h
      rw [sameConfig_iff] at hac ⊢
      exact hac.trans hc

theorem coalesceGo_fix (l : List compact_puzzle) (a : compact_puzzle)
    (h : List.Chain' (fun x y => ¬ sameConfig x y) (a :: l)) :
    coalesceGo a l = a :: l := by
  induction l generalizing a with
  | nil => rfl
  | cons b l ih =>
    rw [List.chain'_cons] at h
    rw [coalesceGo, if_neg h.1, ih b h.2]

/-- The precondition under which coalesce deduplicates: all records of one
configuration stand next to each other.  Each record either has the same
configuration as its immediate successor (its run continues) or its
configuration never occurs again in the remainder of the stream. -/
def Grouped : List compact_puzzle → Prop
  | [] => True
  | [_] => True
  | a :: b :: l =>
    (config a = config b ∨ config a ∉ (b :: l).map config) ∧ Grouped (b :: l)

instance GroupedDec : (l : List compact_puzzle) → Decidable (Grouped l)
  | [] => isTrue trivial
  | [_] => isTrue trivial
  | a :: b :: l =>
    haveI := GroupedDec (b :: l)
    decidable_of_iff
      ((config a = config b ∨ config a ∉ (b :: l).map config) ∧ Grouped (b :: l))
      Iff.rfl

theorem grouped_cons_of_config_eq (x y : compact_puzzle) (t : List compact_puzzle)
    (hxy : config x = config y) (h : Grouped (y :: t)) : Grouped (x :: t) := by
  cases t with
  | nil => trivial
  | cons c t' =>
    obtain ⟨h1, h2⟩ := h
    exact ⟨by rw [hxy]; exact h1, h2⟩

theorem coalesceGo_nodup (l : List compact_puzzle) (a : compact_puzzle)
    (h : Grouped (a :: l)) :
    ((coalesceGo a l).map config).Nodup := by
  induction l generalizing a with
  | nil => simp [coalesceGo]
  | cons b l ih =>
    obtain ⟨hcl, hg⟩ := h
    by_cases hs : sameConfig a b
    · rw [coalesceGo, if_pos hs]
      exact ih _ (grouped_cons_of_config_eq _ b l
        ((config_mergeCP a b hs).trans ((sameConfig_iff a b).mp hs)) hg)
    · rw [coalesceGo, if_neg hs]
      rw [List.map_cons, List.nodup_cons]
      refine ⟨?_, ih b hg⟩
      intro hmem
      rw [coalesceGo_mem_config] at hmem
      rcases hcl with hEq | hNot
      · exact hs ((sameConfig_iff a b).mpr hEq)
      · exact hNot hmem

/-- C2: coalesce is the single linear pass described by the source (empty
input emits nothing; a one-record stream emits that record; each further
record is merged into the accumulator exactly when it has equal `hi` and
`lo` equal outside the mask bits, else the accumulator is emitted), and
consequently, when all records of one configuration are adjacent in the
input, the output carries exactly one record per distinct configuration. -/
theorem coalesce_linear_pass_unique (l : List compact_puzzle) (h : Grouped l) :
    (coalesce [] = [] ∧ (∀ a, coalesce [a] = [a]) ∧
      ∀ a b r, coalesce (a :: b :: r) =
        if sameConfig a b then coalesce (mergeCP a b :: r)
        else a :: coalesce (b :: r)) ∧
    ((coalesce l).map config).Nodup ∧
    (∀ c, c ∈ (coalesce l).map config ↔ c ∈ l.map config) := by
  refine ⟨⟨rfl, fun a => rfl, fun a b r => rfl⟩, ?_, ?_⟩
  · cases l with
    | nil => simp [coalesce]
    | cons a t => exact coalesceGo_nodup t a h
  · intro c
    cases l with
    | nil => simp [coalesce]
    | cons a t => exact coalesceGo_mem_config t a c

theorem coalesce_linear_pass_unique_witness :
    Grouped [⟨0, 16⟩, ⟨0, 17⟩, ⟨1, 16⟩] ∧
      ((coalesce [⟨0, 16⟩, ⟨0, 17⟩, ⟨1, 16⟩]).map config).Nodup := by
  have hg : Grouped [⟨0, 16⟩, ⟨0, 17⟩, ⟨1, 16⟩] := by decide
  exact ⟨hg, (coalesce_linear_pass_unique _ hg).2.1⟩

/-- C6: coalesce is idempotent; coalescing a coalesced stream is a no-op. -/
theorem coalesce_idempotent (l : List compact_puzzle) :
    coalesce (coalesce l) = coalesce l := by
  cases l with
  | nil => rfl
  | cons a t =>
    show coalesce (coalesceGo a t) = coalesceGo a t
    obtain ⟨c, s, he, -⟩ := coalesceGo_head t a
    rw [he]
    show coalesceGo c s = c :: s
    exact coalesceGo_fix s c (he ▸ coalesceGo_chain t a)

/-- C10: coalescing the empty stream writes nothing (the first read returns
end of file and coalesce returns immediately), and every non-empty input
stream produces at least one output record. -/
theorem coalesce_empty_iff :
    coalesce [] = [] ∧ ∀ a l, 1 ≤ (coalesce (a :: l)).length :=
  ⟨rfl, fun a l => coalesceGo_length_pos l a⟩

/-- Configuration of the last record of the non-empty list a :: l. -/
def configLast (a : compact_puzzle) : List compact_puzzle → Nat × Nat
  | [] => config a
  | b :: t => configLast b t

theorem configLast_getLast? (l : List compact_puzzle) (p x : compact_puzzle)
    (h : (p :: l).getLast? = some x) : configLast p l = config x := by
  induction l generalizing p with
  | nil =>
    simp only [List.getLast?_singleton, Option.some.injEq] at h
    rw [← h]; rfl
  | cons q t ih =>
    rw [List.getLast?_cons_cons] at h
    exact ih q h

theorem configLast_all (g : List compact_puzzle) (a : compact_puzzle)
    (h : ∀ b ∈ g, config b = config a) : configLast a g = config a := by
  induction g generalizing a with
  | nil => rfl
  | cons b g' ih =>
    have hb := h b (List.mem_cons_self b g')
    show configLast b g' = config a
    exact (ih b (fun x hx =>
      (h x (List.mem_cons_of_mem _ hx)).trans hb.symm)).trans hb

theorem coalesceGo_append (l1 : List compact_puzzle) (a b : compact_puzzle)
    (l2 : List compact_puzzle) (h : configLast a l1 ≠ config b) :
    coalesceGo a (l1 ++ b :: l2) = coalesceGo a l1 ++ coalesceGo b l2 := by
  induction l1 generalizing a with
  | nil =>
    have hs : ¬ sameConfig a b := fun hs => h ((sameConfig_iff a b).mp hs)
    rw [List.nil_append]
    show coalesceGo a (b :: l2) = [a] ++ coalesceGo b l2
    simp only [coalesceGo]
    rw [if_neg hs]
    rfl
  | cons c l1' ih =>
    have h' : configLast c l1' ≠ config b := h
    by_cases hs : sameConfig a c
    · have h2 : configLast (mergeCP a c) l1' ≠ config b := by
        cases l1' with
        | nil =>
          intro hc
          apply h'
          calc config c = config a := ((sameConfig_iff a c).mp hs).symm
            _ = config (mergeCP a c) := (config_mergeCP a c hs).symm
            _ = config b := hc
        | cons d t => exact h'
      calc coalesceGo a ((c :: l1') ++ b :: l2)
          = coalesceGo (mergeCP a c) (l1' ++ b :: l2) := by
            rw [List.cons_append, coalesceGo, if_pos hs]
        _ = coalesceGo (mergeCP a c) l1' ++ coalesceGo b l2 := ih _ h2
        _ = coalesceGo a (c :: l1') ++ coalesceGo b l2 := by
            rw [coalesceGo, if_pos hs]
    · calc coalesceGo a ((c :: l1') ++ b :: l2)
          = a :: coalesceGo c (l1' ++ b :: l2) := by
            rw [List.cons_append, coalesceGo, if_neg hs]
        _ = a :: (coalesceGo c l1' ++ coalesceGo b l2) := by rw [ih c h']
        _ = coalesceGo a (c :: l1') ++ coalesceGo b l2 := by
            rw [coalesceGo, if_neg hs]; rfl

theorem coalesceGo_run (g : List compact_puzzle) (a : compact_puzzle)
    (h : ∀ b ∈ g, config b = config a) :
    coalesceGo a g = [⟨a.hi, g.foldl (fun acc b => acc ||| b.lo) a.lo⟩] := by
  induction g generalizing a with
  | nil => rfl
  | cons b g' ih =>
    have hb : sameConfig a b :=
      (sameConfig_iff a b).mpr (h b (List.mem_cons_self b g')).symm
    rw [coalesceGo, if_pos hb,
      ih (mergeCP a b) (fun x hx =>
        (h x (List.mem_cons_of_mem _ hx)).trans (config_mergeCP a b hb).symm)]
    rfl

theorem foldl_or_and (g : List compact_puzzle) (s m : Nat) :
    (g.foldl (fun acc b => acc ||| b.lo) s) &&& m =
      g.foldl (fun acc b => acc ||| (b.lo &&& m)) (s &&& m) := by
  induction g generalizing s with
  | nil => rfl
  | cons b g' ih =>
    show (g'.foldl _ (s ||| b.lo)) &&& m = g'.foldl _ ((s &&& m) ||| (b.lo &&& m))
    rw [ih (s ||| b.lo), natOrAndRight]

/-- Record that the coalesce pass emits for one maximal group of
configuration-equal records headed by `a` and continued by `g`: the head's
`hi` with the bitwise OR of all the group's `lo` halves. -/
def groupRec (a : compact_puzzle) (g : List compact_puzzle) : compact_puzzle :=
  ⟨a.hi, g.foldl (fun acc b => acc ||| b.lo) a.lo⟩

/-- C5: for a maximal adjacent group `a :: g` of records of one
configuration (the record before the group, if any, and the record after
it, if any, have different configurations), coalesce emits exactly one
record for the group, and that record's mask field is the bitwise OR of
the mask bits of every record in the group. -/
theorem coalesce_group_mask_union (pre : List compact_puzzle)
    (a : compact_puzzle) (g post : List compact_puzzle)
    (hg : ∀ b ∈ g, config b = config a)
    (hpre : ∀ x ∈ pre.getLast?, config x ≠ config a)
    (hpost : ∀ y ∈ post.head?, config y ≠ config a) :
    coalesce (pre ++ a :: g ++ post) =
      coalesce pre ++ groupRec a g :: coalesce post ∧
    (groupRec a g).lo &&& MOVE_MASK =
      g.foldl (fun acc b => acc ||| (b.lo &&& MOVE_MASK)) (a.lo &&& MOVE_MASK) := by
  refine ⟨?_, foldl_or_and g a.lo MOVE_MASK⟩
  have hmid : coalesceGo a (g ++ post) = groupRec a g :: coalesce post := by
    cases post with
    | nil =>
      rw [List.append_nil, coalesceGo_run g a hg]
      rfl
    | cons y post' =>
      have hy : configLast a g ≠ config y := by
        rw [configLast_all g a hg]
        exact fun hc => hpost y rfl hc.symm
      rw [coalesceGo_append g a y post' hy, coalesceGo_run g a hg]
      rfl
  rw [List.append_assoc, List.cons_append]
  cases pre with
  | nil =>
    show coalesceGo a (g ++ post) = [] ++ groupRec a g :: coalesce post
    rw [hmid]
    rfl
  | cons p pre' =>
    have hlast : configLast p pre' ≠ config a := by
      rw [configLast_getLast? pre' p ((p :: pre').getLast (by simp))
        (List.getLast?_eq_getLast (p :: pre') (by simp))]
      exact hpre _ (List.getLast?_eq_getLast (p :: pre') (by simp))
    rw [List.cons_append]
    show coalesceGo p (pre' ++ a :: (g ++ post)) =
      coalesceGo p pre' ++ (groupRec a g :: coalesce post)
    rw [coalesceGo_append pre' p a (g ++ post) hlast, hmid]

theorem coalesce_group_mask_union_witness :
    coalesce ([⟨5, 0⟩] ++ (⟨0, 17⟩ : compact_puzzle) :: [⟨0, 18⟩] ++ [⟨2, 0⟩]) =
      coalesce [⟨5, 0⟩] ++ groupRec ⟨0, 17⟩ [⟨0, 18⟩] :: coalesce [⟨2, 0⟩] ∧
    (groupRec ⟨0, 17⟩ [⟨0, 18⟩]).lo &&& MOVE_MASK =
      [(⟨0, 18⟩ : compact_puzzle)].foldl
        (fun acc b => acc ||| (b.lo &&& MOVE_MASK)) ((17 : Nat) &&& MOVE_MASK) :=
  coalesce_group_mask_union [⟨5, 0⟩] ⟨0, 17⟩ [⟨0, 18⟩] [⟨2, 0⟩]
    (by decide)
    (by intro x hx; simp only [List.getLast?_singleton, Option.mem_def,
          Option.some.injEq] at hx; rw [← hx]; decide)
    (by intro y hy; simp only [List.head?_cons, Option.mem_def,
          Option.some.injEq] at hy; rw [← hy]; decide)

/-- Modelled from the spec: `struct puzzle` (puzzle.h, which is not among
the sources).  `tiles i` is the grid location of tile `i`; tile 0 is the
blank. -/
structure puzzle where
  tiles : List Nat
deriving DecidableEq

/-- Modelled from the spec: `zero_location` (puzzle.h), the grid cell of
the blank. -/
def zero_location (p : puzzle) : Nat := p.tiles.getD 0 0

/-- Modelled from the spec: the move table `get_moves` (puzzle.h): the grid
cells orthogonally adjacent to `zloc` on the 5x5 board, the cells the blank
can move to. -/
def get_moves (zloc : Nat) : List Nat :=
  (if 5 ≤ zloc then [zloc - 5] else []) ++
  (if zloc % 5 ≠ 0 then [zloc - 1] else []) ++
  (if zloc % 5 ≠ 4 then [zloc + 1] else []) ++
  (if zloc + 5 < 25 then [zloc + 5] else [])

/-- Modelled from the spec: `move_count` (puzzle.h). -/
def move_count (zloc : Nat) : Nat := (get_moves zloc).length

/-- Modelled from the spec: `move(&p, dest)` (puzzle.h) slides the blank to
grid cell `dest`, i.e. swaps the blank with the tile on that cell.  In
location space this transposes the blank's cell and `dest` in every tile's
location. -/
def move (p : puzzle) (dest : Nat) : puzzle :=
  ⟨p.tiles.map (fun l =>
    if l = dest then zero_location p
    else if l = zero_location p then dest else l)⟩

/-- Little-endian base-32 packing of a list of five-bit digits. -/
def packbits : List Nat → Nat
  | [] => 0
  | d :: ds => d + 32 * packbits ds

/-- Modelled from the spec: `pack_puzzle_masked(&cp, &p, m)` (compact.h):
bit-packs the locations of tiles 0..23 five bits apiece (the last tile's
location is redundant and omitted), the first twelve into `lo` above the
mask field and the next twelve into `hi`, and stores the caller-supplied
mask into the mask field. -/
def pack_puzzle_masked (p : puzzle) (m : Nat) : compact_puzzle :=
  ⟨packbits ((p.tiles.drop 12).take 12),
   (m &&& MOVE_MASK) + 16 * packbits (p.tiles.take 12)⟩

/-- Modelled from the spec: `pack_puzzle` packs with an empty mask. -/
def pack_puzzle (p : puzzle) : compact_puzzle := pack_puzzle_masked p 0

/-- Location of tile `t`, `t < 24`, read back from the packed fields. -/
def tileAt (cp : compact_puzzle) (t : Nat) : Nat :=
  if t < 12 then cp.lo / 2 ^ (4 + 5 * t) % 32
  else cp.hi / 2 ^ (5 * (t - 12)) % 32

/-- Modelled from the spec: the location of tile `t` a compact puzzle
represents; tile 24 sits on the one cell the other 24 locations leave over
(the 25 cell numbers sum to 300). -/
def tileOf (cp : compact_puzzle) (t : Nat) : Nat :=
  if t < 24 then tileAt cp t
  else 300 - ((List.range 24).map (tileAt cp)).sum

/-- Modelled from the spec: `unpack_puzzle` (compact.h). -/
def unpack_puzzle (cp : compact_puzzle) : puzzle :=
  ⟨(List.range 25).map (tileOf cp)⟩

/-- Modelled from the spec: `move_mask` (compact.h) reads the mask field
from the low bits of `lo`. -/
def move_mask (cp : compact_puzzle) : Nat := cp.lo &&& MOVE_MASK

/-- A well-formed puzzle: the tile vector is a permutation of the 25 grid
cells. -/
def ValidP (p : puzzle) : Prop := p.tiles.Perm (List.range 25)

instance (p : puzzle) : Decidable (ValidP p) := by
  unfold ValidP; infer_instance

theorem packbits_lt (ds : List Nat) (hb : ∀ d ∈ ds, d < 32) :
    packbits ds < 32 ^ ds.length := by
  induction ds with
  | nil => simp [packbits]
  | cons d t ih =>
    have hd := hb d (List.mem_cons_self d t)
    have ht := ih (fun x hx => hb x (List.mem_cons_of_mem _ hx))
    have h32 : 32 * packbits t + 32 ≤ 32 * 32 ^ t.length :=
      Nat.mul_le_mul_left 32 ht
    show d + 32 * packbits t < 32 ^ (t.length + 1)
    rw [Nat.pow_succ, Nat.mul_comm (32 ^ t.length) 32]
    omega

theorem packbits_extract (ds : List Nat) (k : Nat) (hb : ∀ d ∈ ds, d < 32)
    (hk : k < ds.length) :
    packbits ds / 32 ^ k % 32 = ds.getD k 0 := by
  induction ds generalizing k with
  | nil => simp at hk
  | cons d t ih =>
    have hd := hb d (List.mem_cons_self d t)
    cases k with
    | zero =>
      show packbits (d :: t) / 1 % 32 = d
      rw [Nat.div_one]
      show (d + 32 * packbits t) % 32 = d
      rw [Nat.add_mul_mod_self_left, Nat.mod_eq_of_lt hd]
    | succ k =>
      show packbits (d :: t) / 32 ^ (k + 1) % 32 = t.getD k 0
      have hsplit : packbits (d :: t) / 32 ^ (k + 1) = packbits t / 32 ^ k := by
        rw [Nat.pow_succ, Nat.mul_comm (32 ^ k) 32, ← Nat.div_div_eq_div_mul]
        have : packbits (d :: t) / 32 = packbits t := by
          show (d + 32 * packbits t) / 32 = packbits t
          rw [Nat.add_mul_div_left d _ (by norm_num), Nat.div_eq_of_lt hd,
            Nat.zero_add]
        rw [this]
      rw [hsplit]
      exact ih k (fun x hx => hb x (List.mem_cons_of_mem _ hx))
        (Nat.lt_of_succ_lt_succ hk)

theorem lo_div_16 (p : puzzle) (m : Nat) :
    (pack_puzzle_masked p m).lo / 16 = packbits (p.tiles.take 12) := by
  show ((m &&& MOVE_MASK) + 16 * packbits (p.tiles.take 12)) / 16 = _
  have hm : m &&& MOVE_MASK < 16 := Nat.lt_succ_of_le Nat.and_le_right
  rw [Nat.add_mul_div_left _ _ (by norm_num), Nat.div_eq_of_lt hm, Nat.zero_add]

theorem tileAt_pack (p : puzzle) (m t : Nat) (hlen : p.tiles.length = 25)
    (hb : ∀ d ∈ p.tiles, d < 32) (ht : t < 24) :
    tileAt (pack_puzzle_masked p m) t = p.tiles.getD t 0 := by
  by_cases h12 : t < 12
  · rw [tileAt, if_pos h12]
    have hpow : (2 : Nat) ^ (4 + 5 * t) = 16 * 32 ^ t := by
      rw [Nat.pow_add, Nat.pow_mul]
    rw [hpow, ← Nat.div_div_eq_div_mul, lo_div_16]
    rw [packbits_extract (p.tiles.take 12) t
      (fun x hx => hb x (List.mem_of_mem_take hx))
      (by rw [List.length_take, hlen]; omega)]
    simp only [List.getD_eq_getElem?_getD, List.getElem?_take_of_lt h12]
  · have h12' : 12 ≤ t := Nat.le_of_not_lt h12
    rw [tileAt, if_neg h12]
    have hpow : (2 : Nat) ^ (5 * (t - 12)) = 32 ^ (t - 12) := by
      rw [Nat.pow_mul]
    rw [hpow]
    show packbits ((p.tiles.drop 12).take 12) / 32 ^ (t - 12) % 32 = _
    rw [packbits_extract ((p.tiles.drop 12).take 12) (t - 12)
      (fun x hx => hb x (List.mem_of_mem_drop (List.mem_of_mem_take hx)))
      (by rw [List.length_take, List.length_drop, hlen]; omega)]
    simp only [List.getD_eq_getElem?_getD,
      List.getElem?_take_of_lt (show t - 12 < 12 by omega), List.getElem?_drop]
    congr 2
    omega

theorem range_map_getD_sum (l : List Nat) (n : Nat) (hn : n ≤ l.length) :
    ((List.range n).map (fun i => l.getD i 0)).sum = (l.take n).sum := by
  induction n with
  | zero => simp
  | succ n ih =>
    rw [List.range_succ, List.map_append, List.sum_append,
      ih (Nat.le_of_succ_le hn)]
    have hget : l[n]?.toList = [l.getD n 0] := by
      have : n < l.length := hn
      simp [List.getElem?_eq_getElem this, List.getD_eq_getElem?_getD,
        List.getElem?_eq_getElem this]
    rw [List.take_succ, List.sum_append, hget]
    simp

theorem valid_tiles_facts (p : puzzle) (hv : ValidP p) :
    p.tiles.length = 25 ∧ (∀ d ∈ p.tiles, d < 25) ∧ p.tiles.sum = 300 := by
  refine ⟨?_, ?_, ?_⟩
  · rw [hv.length_eq]; rfl
  · intro d hd
    have := hv.mem_iff.mp hd
    exact List.mem_range.mp this
  · rw [hv.sum_eq]
    rfl

theorem tileOf_pack (p : puzzle) (m t : Nat) (hv : ValidP p) (ht : t < 25) :
    tileOf (pack_puzzle_masked p m) t = p.tiles.getD t 0 := by
  obtain ⟨hlen, hb25, hsum⟩ := valid_tiles_facts p hv
  have hb : ∀ d ∈ p.tiles, d < 32 := fun d hd => Nat.lt_of_lt_of_le (hb25 d hd) (by norm_num)
  by_cases h24 : t < 24
  · show (if t < 24 then tileAt _ t else _) = _
    rw [if_pos h24]
    exact tileAt_pack p m t hlen hb h24
  · have ht24 : t = 24 := by omega
    subst ht24
    show (if (24 : Nat) < 24 then _ else 300 - ((List.range 24).map (tileAt (pack_puzzle_masked p m))).sum) = _
    rw [if_neg (by omega)]
    have hmap : (List.range 24).map (tileAt (pack_puzzle_masked p m)) =
        (List.range 24).map (fun i => p.tiles.getD i 0) := by
      apply List.map_congr_left
      intro i hi
      exact tileAt_pack p m i hlen hb (List.mem_range.mp hi)
    rw [hmap, range_map_getD_sum p.tiles 24 (by omega)]
    have hsplit : (p.tiles.take 24).sum + p.tiles.getD 24 0 = 300 := by
      have h1 : p.tiles = p.tiles.take 24 ++ p.tiles.drop 24 := (List.take_append_drop _ _).symm
      have h2 : p.tiles.drop 24 = [p.tiles.getD 24 0] := by
        have hld : (p.tiles.drop 24).length = 1 := by rw [List.length_drop, hlen]
        cases hd : p.tiles.drop 24 with
        | nil => rw [hd] at hld; simp at hld
        | cons x xs =>
          rw [hd] at hld
          simp only [List.length_cons] at hld
          have hxs : xs = [] := List.length_eq_zero.mp (by omega)
          subst hxs
          have hx : p.tiles.getD 24 0 = x := by
            simp only [List.getD_eq_getElem?_getD]
            have h3 := List.getElem?_drop p.tiles 24 0
            rw [hd] at h3
            simp at h3
            rw [← h3]
            rfl
          rw [hx]
      calc (p.tiles.take 24).sum + p.tiles.getD 24 0
          = (p.tiles.take 24).sum + (p.tiles.drop 24).sum := by rw [h2]; simp
        _ = p.tiles.sum := by rw [← List.sum_append, ← h1]
        _ = 300 := hsum
    omega

theorem unpack_getD (cp : compact_puzzle) (t : Nat) (ht : t < 25) :
    (unpack_puzzle cp).tiles.getD t 0 = tileOf cp t := by
  show ((List.range 25).map (tileOf cp)).getD t 0 = tileOf cp t
  simp [List.getD_eq_getElem?_getD, List.getElem?_range ht]

/-- A set of 25 radix bucket files, in `loc` order; the content of each
bucket file is the list of records written to it so far. -/
def emptyFiles : List (List compact_puzzle) := List.replicate 25 []

/-- Append one record to the bucket file with index `k` (a `putpuzzle` to
`outfiles[k]`). -/
def appendFile (fs : List (List compact_puzzle)) (k : Nat)
    (cp : compact_puzzle) : List (List compact_puzzle) :=
  fs.set k (fs.getD k [] ++ [cp])

/-- Distribution of a stream to buckets keyed by an arbitrary digit
function; `distribute` below instantiates the digit with a tile location. -/
def distGen (g : compact_puzzle → Nat) (fs : List (List compact_puzzle))
    (l : List compact_puzzle) : List (List compact_puzzle) :=
  l.foldl (fun fs cp => appendFile fs (g cp) cp) fs

/-- The function `distribute` (puzzledistext.c lines 155-165): every record
of `infile` is unpacked and appended to the bucket selected by the location
of tile `t`. -/
def distribute (fs : List (List compact_puzzle)) (infile : List compact_puzzle)
    (t : Nat) : List (List compact_puzzle) :=
  infile.foldl (fun fs cp => appendFile fs ((unpack_puzzle cp).tiles.getD t 0) cp) fs

theorem distribute_eq_distGen (fs : List (List compact_puzzle))
    (infile : List compact_puzzle) (t : Nat) :
    distribute fs infile t =
      distGen (fun cp => (unpack_puzzle cp).tiles.getD t 0) fs infile := rfl

theorem appendFile_length (fs : List (List compact_puzzle)) (k : Nat)
    (cp : compact_puzzle) : (appendFile fs k cp).length = fs.length :=
  List.length_set fs k _

theorem distGen_length (g : compact_puzzle → Nat) (l : List compact_puzzle)
    (fs : List (List compact_puzzle)) :
    (distGen g fs l).length = fs.length := by
  induction l generalizing fs with
  | nil => rfl
  | cons cp l ih =>
    show (distGen g (appendFile fs (g cp) cp) l).length = fs.length
    rw [ih, appendFile_length]

theorem appendFile_getD (fs : List (List compact_puzzle)) (j k : Nat)
    (cp : compact_puzzle) (hj : j < fs.length) :
    (appendFile fs j cp).getD k [] =
      if j = k then fs.getD k [] ++ [cp] else fs.getD k [] := by
  by_cases hjk : j = k
  · subst hjk
    rw [if_pos rfl]
    simp [appendFile, List.getD_eq_getElem?_getD, List.getElem?_set_self hj]
  · rw [if_neg hjk]
    simp [appendFile, List.getD_eq_getElem?_getD, List.getElem?_set_ne hjk]

theorem distGen_getD (g : compact_puzzle → Nat) (l : List compact_puzzle)
    (fs : List (List compact_puzzle)) (k : Nat)
    (hg : ∀ cp ∈ l, g cp < fs.length) :
    (distGen g fs l).getD k [] =
      fs.getD k [] ++ l.filter (fun cp => g cp == k) := by
  induction l generalizing fs with
  | nil => simp [distGen]
  | cons cp l ih =>
    have hcp := hg cp (List.mem_cons_self cp l)
    show (distGen g (appendFile fs (g cp) cp) l).getD k [] = _
    rw [ih (appendFile fs (g cp) cp)
      (fun x hx => by rw [appendFile_length]; exact hg x (List.mem_cons_of_mem _ hx))]
    rw [appendFile_getD fs (g cp) k cp hcp, List.filter_cons]
    by_cases hk : g cp = k
    · rw [if_pos hk, if_pos (by simpa using hk)]
      simp
    · rw [if_neg hk, if_neg (by simpa using hk)]

theorem emptyFiles_getD (k : Nat) : emptyFiles.getD k [] = [] := by
  unfold emptyFiles
  rw [List.getD_eq_getElem?_getD, List.getElem?_replicate]
  by_cases hk : k < 25
  · rw [if_pos hk]; rfl
  · rw [if_neg hk]; rfl

theorem distGen_empty_eq (g : compact_puzzle → Nat) (l : List compact_puzzle)
    (hg : ∀ cp ∈ l, g cp < 25) :
    distGen g emptyFiles l =
      (List.range 25).map (fun k => l.filter (fun cp => g cp == k)) := by
  have hlen : (distGen g emptyFiles l).length = 25 := by
    rw [distGen_length]; rfl
  apply List.ext_getElem?
  intro i
  by_cases hi : i < 25
  · have h1 : (distGen g emptyFiles l)[i]? =
        some ((distGen g emptyFiles l).getD i []) := by
      rw [List.getElem?_eq_getElem (by omega)]
      simp [List.getD_eq_getElem?_getD, List.getElem?_eq_getElem (show i < (distGen g emptyFiles l).length by omega)]
    rw [h1, distGen_getD g l emptyFiles i (fun cp hcp => by
      show g cp < emptyFiles.length; simpa [emptyFiles] using hg cp hcp),
      emptyFiles_getD, List.nil_append]
    rw [List.getElem?_map, List.getElem?_range hi]
    rfl
  · rw [List.getElem?_eq_none (by omega), List.getElem?_eq_none (by simp; omega)]

theorem filter_disjoint_perm {α : Type} (l : List α) (p q : α → Bool)
    (h : ∀ x ∈ l, ¬(p x = true ∧ q x = true)) :
    (l.filter p ++ l.filter q).Perm (l.filter (fun x => p x || q x)) := by
  induction l with
  | nil => simp
  | cons a l ih =>
    have ih' := ih (fun x hx => h x (List.mem_cons_of_mem _ hx))
    have ha := h a (List.mem_cons_self a l)
    by_cases hp : p a = true
    · have hq : q a = false := by
        cases hq : q a with
        | false => rfl
        | true => exact absurd ⟨hp, hq⟩ ha
      simp only [List.filter_cons, hp, hq, if_true, if_false, Bool.true_or]
      rw [List.cons_append]
      exact List.Perm.cons a ih'
    · have hp' : p a = false := by simpa using hp
      by_cases hq : q a = true
      · simp only [List.filter_cons, hp', hq, if_true, if_false, Bool.false_or]
        exact List.Perm.trans List.perm_middle (List.Perm.cons a ih')
      · have hq' : q a = false := by simpa using hq
        simpa [List.filter_cons, hp', hq'] using ih'

theorem flatten_filter_le_perm (g : compact_puzzle → Nat) (l : List compact_puzzle)
    (B : Nat) :
    ((List.range B).map (fun k => l.filter (fun cp => g cp == k))).flatten.Perm
      (l.filter (fun cp => g cp < B)) := by
  induction B with
  | zero => simp
  | succ B ih =>
    rw [List.range_succ, List.map_append, List.flatten_append]
    have h1 : (((List.range B).map (fun k => l.filter (fun cp => g cp == k))).flatten ++
        ([l.filter (fun cp => g cp == B)]).flatten).Perm
        (l.filter (fun cp => g cp < B) ++ l.filter (fun cp => g cp == B)) := by
      simpa using List.Perm.append_right (l.filter (fun cp => g cp == B)) ih
    have h2 : (l.filter (fun cp => g cp < B) ++ l.filter (fun cp => g cp == B)).Perm
        (l.filter (fun cp => (decide (g cp < B)) || (g cp == B))) :=
      filter_disjoint_perm l _ _ (fun x _ hx => by
        obtain ⟨hx1, hx2⟩ := hx
        simp only [decide_eq_true_eq] at hx1
        simp only [beq_iff_eq] at hx2
        omega)
    have h3 : l.filter (fun cp => (decide (g cp < B)) || (g cp == B)) =
        l.filter (fun cp => g cp < B + 1) := by
      apply List.filter_congr
      intro x _
      rw [Bool.eq_iff_iff]
      simp only [Bool.or_eq_true, decide_eq_true_eq, beq_iff_eq]
      omega
    exact List.Perm.trans h1 (List.Perm.trans h2 (h3 ▸ List.Perm.refl _))

theorem flatten_filter_perm (g : compact_puzzle → Nat) (B : Nat)
    (l : List compact_puzzle) (hg : ∀ cp ∈ l, g cp < B) :
    ((List.range B).map (fun k => l.filter (fun cp => g cp == k))).flatten.Perm l := by
  have h := flatten_filter_le_perm g l B
  rwa [List.filter_eq_self.mpr (fun a ha => by
    simpa using hg a ha)] at h

theorem pairwise_of_all {α : Type} (R : α → α → Prop) (l : List α)
    (h : ∀ a b, R a b) : l.Pairwise R := by
  induction l with
  | nil => exact List.Pairwise.nil
  | cons a t ih => exact List.Pairwise.cons (fun b _ => h a b) ih

theorem flatten_filter_pairwise (g f : compact_puzzle → Nat) (M B : Nat)
    (l : List compact_puzzle) (hf : ∀ cp ∈ l, f cp < M)
    (hl : l.Pairwise (fun a b => f a ≤ f b)) :
    ((List.range B).map (fun k => l.filter (fun cp => g cp == k))).flatten.Pairwise
      (fun a b => g a * M + f a ≤ g b * M + f b) := by
  rw [List.pairwise_flatten]
  constructor
  · intro bucket hbucket
    rw [List.mem_map] at hbucket
    obtain ⟨k, -, hk⟩ := hbucket
    subst hk
    apply List.Pairwise.imp_of_mem ?_ (hl.filter _)
    intro a b ha hb hab
    have hga : g a = k := by
      have := (List.mem_filter.mp ha).2
      simpa using this
    have hgb : g b = k := by
      have := (List.mem_filter.mp hb).2
      simpa using this
    rw [hga, hgb]
    omega
  · rw [List.pairwise_map]
    apply List.Pairwise.imp ?_ (List.pairwise_lt_range B)
    intro k1 k2 hk12
    intro a ha b hb
    obtain ⟨hal, hak⟩ := List.mem_filter.mp ha
    obtain ⟨hbl, hbk⟩ := List.mem_filter.mp hb
    have hga : g a = k1 := by simpa using hak
    have hgb : g b = k2 := by simpa using hbk
    have hfa : f a < M := hf a hal
    have h1 : g a * M + f a < (g a + 1) * M := by
      rw [Nat.succ_mul]
      omega
    have h2 : (g a + 1) * M ≤ g b * M :=
      Nat.mul_le_mul_right M (by omega)
    omega

/-- One redistribution round of `expround` (lines 219-228): a fresh set of
bucket files, then the old buckets are drained in `loc = 0..24` order, each
record going to the new bucket for the location of tile `t`. -/
def roundPass (old : List (List compact_puzzle)) (t : Nat) :
    List (List compact_puzzle) :=
  old.foldl (fun nfs bucket => distribute nfs bucket t) emptyFiles

theorem distGen_append (g : compact_puzzle → Nat) (fs : List (List compact_puzzle))
    (l1 l2 : List compact_puzzle) :
    distGen g fs (l1 ++ l2) = distGen g (distGen g fs l1) l2 := by
  unfold distGen
  rw [List.foldl_append]

theorem roundPass_eq (old : List (List compact_puzzle)) (t : Nat) :
    roundPass old t = distribute emptyFiles old.flatten t := by
  suffices h : ∀ (old : List (List compact_puzzle)) (acc : List (List compact_puzzle)),
      old.foldl (fun nfs bucket => distribute nfs bucket t) acc =
        distribute acc old.flatten t by
    exact h old emptyFiles
  intro old
  induction old with
  | nil => intro acc; rfl
  | cons b rest ih =>
    intro acc
    show rest.foldl _ (distribute acc b t) = distribute acc ((b :: rest).flatten) t
    rw [ih (distribute acc b t), List.flatten_cons, distribute_eq_distGen,
      distribute_eq_distGen, distribute_eq_distGen, distGen_append]

/-- The redistribution loop of `expround` (lines 219-228): starting from the
round-23 buckets written by the fused expansion pass, one `roundPass` per
round keyed on tile `round - 1` for `round = 23, 22, ..., 1`, i.e. on tile
locations 22, 21, ..., 0. -/
def distRounds : Nat → List (List compact_puzzle) → List (List compact_puzzle)
  | 0, fs => fs
  | r + 1, fs => distRounds r (roundPass fs r)

/-- The distribution passes of one layer: the fused first pass groups the
input records by the location of tile 24 (`expandpuzzle` writes each child
to `outfiles + p.tiles[TILE_COUNT - 1]`), and the 23 following rounds
redistribute by tiles 22, 21, ..., 0.  The result is the final round's
bucket list, flattened in `loc = 0..24` order. -/
def distributionPasses (S : List compact_puzzle) : List compact_puzzle :=
  (distRounds 23 (distribute emptyFiles S 24)).flatten

/-- Numeric sort key established after a prefix of the radix passes:
`rkey 0` is the digit of the fused pass (tile 24) and `rkey (j + 1)` adds
the digit of the following pass on tile `22 - j` as a more significant
base-25 digit. -/
def rkey : Nat → compact_puzzle → Nat
  | 0, cp => tileOf cp 24
  | j + 1, cp => tileOf cp (22 - j) * 25 ^ (j + 1) + rkey j cp

theorem rkey_lt (cp : compact_puzzle) (hd : ∀ t, t < 25 → tileOf cp t < 25) :
    ∀ j, rkey j cp < 25 ^ (j + 1) := by
  intro j
  induction j with
  | zero =>
    show tileOf cp 24 < 25 ^ 1
    simpa using hd 24 (by omega)
  | succ j ih =>
    show tileOf cp (22 - j) * 25 ^ (j + 1) + rkey j cp < 25 ^ (j + 2)
    have hdig : tileOf cp (22 - j) ≤ 24 :=
      Nat.le_of_lt_succ (hd (22 - j) (by omega))
    have h1 : tileOf cp (22 - j) * 25 ^ (j + 1) ≤ 24 * 25 ^ (j + 1) :=
      Nat.mul_le_mul_right _ hdig
    have h2 : (25 : Nat) ^ (j + 2) = 25 * 25 ^ (j + 1) := by
      rw [Nat.pow_succ, Nat.mul_comm]
    omega

theorem rkey_step (s : Nat) (hs : s ≤ 22) (cp : compact_puzzle) :
    rkey (23 - s) cp = tileOf cp s * 25 ^ (23 - s) + rkey (22 - s) cp := by
  have h1 : 23 - s = (22 - s) + 1 := by omega
  rw [h1, rkey, show 22 - (22 - s) = s by omega]

theorem onePass_spec (s : Nat) (hs : s ≤ 22) (fs : List (List compact_puzzle))
    (hdig : ∀ cp ∈ fs.flatten, ∀ t, t < 25 → tileOf cp t < 25)
    (hsort : fs.flatten.Pairwise (fun a b => rkey (22 - s) a ≤ rkey (22 - s) b)) :
    (roundPass fs s).flatten.Perm fs.flatten ∧
      (roundPass fs s).flatten.Pairwise
        (fun a b => rkey (23 - s) a ≤ rkey (23 - s) b) := by
  have hg : ∀ cp ∈ fs.flatten, (unpack_puzzle cp).tiles.getD s 0 < 25 := by
    intro cp hcp
    rw [unpack_getD cp s (by omega)]
    exact hdig cp hcp s (by omega)
  have heq : roundPass fs s = (List.range 25).map
      (fun k => fs.flatten.filter
        (fun cp => (unpack_puzzle cp).tiles.getD s 0 == k)) := by
    rw [roundPass_eq, distribute_eq_distGen, distGen_empty_eq _ _ hg]
  constructor
  · rw [heq]
    exact flatten_filter_perm _ 25 fs.flatten hg
  · rw [heq]
    have hp := flatten_filter_pairwise
      (fun cp => (unpack_puzzle cp).tiles.getD s 0)
      (rkey (22 - s)) (25 ^ (23 - s)) 25 fs.flatten
      (fun cp hcp => by
        have hb := rkey_lt cp (hdig cp hcp) (22 - s)
        rwa [show 22 - s + 1 = 23 - s from by omega] at hb)
      hsort
    apply List.Pairwise.imp_of_mem ?_ hp
    intro a b ha hb hab
    have hab' : (unpack_puzzle a).tiles.getD s 0 * 25 ^ (23 - s) + rkey (22 - s) a ≤
        (unpack_puzzle b).tiles.getD s 0 * 25 ^ (23 - s) + rkey (22 - s) b := hab
    rw [unpack_getD a s (by omega), unpack_getD b s (by omega)] at hab'
    rw [rkey_step s hs a, rkey_step s hs b]
    exact hab'

theorem distRounds_spec : ∀ r : Nat, r ≤ 23 →
    ∀ fs : List (List compact_puzzle),
    (∀ cp ∈ fs.flatten, ∀ t, t < 25 → tileOf cp t < 25) →
    fs.flatten.Pairwise (fun a b => rkey (23 - r) a ≤ rkey (23 - r) b) →
    (distRounds r fs).flatten.Perm fs.flatten ∧
      (distRounds r fs).flatten.Pairwise (fun a b => rkey 23 a ≤ rkey 23 b) := by
  intro r
  induction r with
  | zero =>
    intro _ fs hdig hsort
    exact ⟨List.Perm.refl _, hsort⟩
  | succ s ih =>
    intro hr fs hdig hsort
    have hs : s ≤ 22 := by omega
    have hsort' : fs.flatten.Pairwise
        (fun a b => rkey (22 - s) a ≤ rkey (22 - s) b) := by
      rwa [show 23 - (s + 1) = 22 - s from by omega] at hsort
    obtain ⟨hperm1, hsort1⟩ := onePass_spec s hs fs hdig hsort'
    have hdig1 : ∀ cp ∈ (roundPass fs s).flatten, ∀ t, t < 25 → tileOf cp t < 25 :=
      fun cp hcp => hdig cp (hperm1.mem_iff.mp hcp)
    obtain ⟨hperm2, hsort2⟩ := ih (by omega) (roundPass fs s) hdig1 hsort1
    exact ⟨List.Perm.trans hperm2 hperm1, hsort2⟩

theorem distributionPasses_spec (S : List compact_puzzle)
    (hdig : ∀ cp ∈ S, ∀ t, t < 25 → tileOf cp t < 25) :
    (distributionPasses S).Perm S ∧
      (distributionPasses S).Pairwise (fun a b => rkey 23 a ≤ rkey 23 b) := by
  have hg : ∀ cp ∈ S, (unpack_puzzle cp).tiles.getD 24 0 < 25 := by
    intro cp hcp
    rw [unpack_getD cp 24 (by omega)]
    exact hdig cp hcp 24 (by omega)
  have heq : distribute emptyFiles S 24 = (List.range 25).map
      (fun k => S.filter (fun cp => (unpack_puzzle cp).tiles.getD 24 0 == k)) := by
    rw [distribute_eq_distGen, distGen_empty_eq _ _ hg]
  have hfperm : (distribute emptyFiles S 24).flatten.Perm S := by
    rw [heq]
    exact flatten_filter_perm _ 25 S hg
  have hfsort : (distribute emptyFiles S 24).flatten.Pairwise
      (fun a b => rkey 0 a ≤ rkey 0 b) := by
    rw [heq]
    have hp := flatten_filter_pairwise
      (fun cp => (unpack_puzzle cp).tiles.getD 24 0)
      (fun _ => 0) 1 25 S (fun _ _ => Nat.zero_lt_one)
      (pairwise_of_all _ S (fun _ _ => Nat.le_refl 0))
    apply List.Pairwise.imp_of_mem ?_ hp
    intro a b ha hb hab
    have hab' : (unpack_puzzle a).tiles.getD 24 0 * 1 + 0 ≤
        (unpack_puzzle b).tiles.getD 24 0 * 1 + 0 := hab
    show tileOf a 24 ≤ tileOf b 24
    rw [unpack_getD a 24 (by omega), unpack_getD b 24 (by omega)] at hab'
    omega
  have hdig' : ∀ cp ∈ (distribute emptyFiles S 24).flatten, ∀ t, t < 25 →
      tileOf cp t < 25 :=
    fun cp hcp => hdig cp (hfperm.mem_iff.mp hcp)
  have hsort0 : (distribute emptyFiles S 24).flatten.Pairwise
      (fun a b => rkey (23 - 23) a ≤ rkey (23 - 23) b) := hfsort
  obtain ⟨h1, h2⟩ := distRounds_spec 23 (Nat.le_refl 23)
    (distribute emptyFiles S 24) hdig' hsort0
  exact ⟨List.Perm.trans h1 hfperm, h2⟩

/-- Value of a big-endian list of base-25 digits. -/
def valD : List Nat → Nat
  | [] => 0
  | d :: ds => d * 25 ^ ds.length + valD ds

theorem valD_lt (ds : List Nat) (hb : ∀ d ∈ ds, d < 25) :
    valD ds < 25 ^ ds.length := by
  induction ds with
  | nil => simp [valD]
  | cons d t ih =>
    have hd := hb d (List.mem_cons_self d t)
    have ht := ih (fun x hx => hb x (List.mem_cons_of_mem _ hx))
    show d * 25 ^ t.length + valD t < 25 ^ (t.length + 1)
    have h1 : d * 25 ^ t.length ≤ 24 * 25 ^ t.length :=
      Nat.mul_le_mul_right _ (by omega)
    have h2 : (25 : Nat) ^ (t.length + 1) = 25 * 25 ^ t.length := by
      rw [Nat.pow_succ, Nat.mul_comm]
    omega

theorem lex_asymm_nat (ds es : List Nat) (h1 : List.Lex (· < ·) ds es)
    (h2 : List.Lex (· < ·) es ds) : False := by
  induction h1 with
  | nil => cases h2
  | @rel a1 l1 a2 l2 hab =>
    cases h2 with
    | rel hba => omega
    | cons h => omega
  | @cons a l1 l2 h ih =>
    cases h2 with
    | rel hba => exact absurd hba (lt_irrefl _)
    | cons h' => exact ih h'

theorem valD_le_iff (ds : List Nat) : ∀ es : List Nat,
    ds.length = es.length → (∀ d ∈ ds, d < 25) → (∀ e ∈ es, e < 25) →
    (valD ds ≤ valD es ↔ (ds = es ∨ List.Lex (· < ·) ds es)) := by
  induction ds with
  | nil =>
    intro es hlen _ _
    have hes : es = [] := List.length_eq_zero.mp hlen.symm
    subst hes
    simp [valD]
  | cons d ds' ih =>
    intro es hlen hds hes
    cases es with
    | nil => simp at hlen
    | cons e es' =>
      simp only [List.length_cons] at hlen
      have hlen' : ds'.length = es'.length := by omega
      have hd := hds d (List.mem_cons_self d ds')
      have he := hes e (List.mem_cons_self e es')
      have hds' : ∀ x ∈ ds', x < 25 := fun x hx => hds x (List.mem_cons_of_mem _ hx)
      have hes' : ∀ x ∈ es', x < 25 := fun x hx => hes x (List.mem_cons_of_mem _ hx)
      have hvd : valD ds' < 25 ^ ds'.length := valD_lt ds' hds'
      have hve : valD es' < 25 ^ ds'.length := by
        rw [hlen']
        exact valD_lt es' hes'
      show d * 25 ^ ds'.length + valD ds' ≤ e * 25 ^ es'.length + valD es' ↔ _
      rw [← hlen']
      rcases Nat.lt_trichotomy d e with hlt | heq | hgt
      · have hle : d * 25 ^ ds'.length + valD ds' ≤ e * 25 ^ ds'.length + valD es' := by
          have : (d + 1) * 25 ^ ds'.length ≤ e * 25 ^ ds'.length :=
            Nat.mul_le_mul_right _ (by omega)
          rw [Nat.succ_mul] at this
          omega
        exact iff_of_true hle (Or.inr (List.Lex.rel hlt))
      · subst heq
        have hiff : d * 25 ^ ds'.length + valD ds' ≤ d * 25 ^ ds'.length + valD es' ↔
            valD ds' ≤ valD es' := by omega
        rw [hiff, ih es' hlen' hds' hes']
        constructor
        · rintro (h | h)
          · exact Or.inl (by rw [h])
          · exact Or.inr (List.Lex.cons h)
        · rintro (h | h)
          · injection h with h1 h2
            exact Or.inl h2
          · exact Or.inr (List.Lex.cons_iff.mp h)
      · have hgt2 : e * 25 ^ ds'.length + valD es' < d * 25 ^ ds'.length + valD ds' := by
          have : (e + 1) * 25 ^ ds'.length ≤ d * 25 ^ ds'.length :=
            Nat.mul_le_mul_right _ (by omega)
          rw [Nat.succ_mul] at this
          omega
        refine iff_of_false (by omega) ?_
        rintro (h | h)
        · injection h with h1 h2; omega
        · cases h with
          | rel hba => omega
          | cons hc => omega

/-- Digit vector matching `rkey`: most significant digit first. -/
def dvec : Nat → compact_puzzle → List Nat
  | 0, cp => [tileOf cp 24]
  | j + 1, cp => tileOf cp (22 - j) :: dvec j cp

theorem dvec_length (cp : compact_puzzle) : ∀ j, (dvec j cp).length = j + 1 := by
  intro j
  induction j with
  | zero => rfl
  | succ j ih =>
    show (dvec j cp).length + 1 = j + 2
    omega

theorem rkey_eq_valD (cp : compact_puzzle) : ∀ j, rkey j cp = valD (dvec j cp) := by
  intro j
  induction j with
  | zero => simp [rkey, dvec, valD]
  | succ j ih =>
    show tileOf cp (22 - j) * 25 ^ (j + 1) + rkey j cp = valD (dvec (j + 1) cp)
    rw [ih]
    show _ = tileOf cp (22 - j) * 25 ^ (dvec j cp).length + valD (dvec j cp)
    rw [dvec_length]

/-- The sort key the distribution passes actually realize: the locations of
tiles 0..22 in order of significance, with the location of tile 24 (the
digit of the fused first pass) as the least significant digit. -/
def keyVecA (cp : compact_puzzle) : List Nat :=
  (List.range 23).map (tileOf cp) ++ [tileOf cp 24]

/-- The sort key claimed by the specification: the locations of tiles
0..23. -/
def keyVec (cp : compact_puzzle) : List Nat :=
  (List.range 24).map (tileOf cp)

/-- Non-strict lexicographic order on digit lists. -/
def lexLe (u v : List Nat) : Prop := u = v ∨ List.Lex (· < ·) u v

instance (u v : List Nat) : Decidable (lexLe u v) := by
  unfold lexLe; infer_instance

theorem keyVecA_eq_dvec (cp : compact_puzzle) : keyVecA cp = dvec 23 cp := by
  rfl

theorem keyVecA_bound (cp : compact_puzzle)
    (hd : ∀ t, t < 25 → tileOf cp t < 25) :
    ∀ x ∈ keyVecA cp, x < 25 := by
  intro x hx
  unfold keyVecA at hx
  rcases List.mem_append.mp hx with h | h
  · obtain ⟨i, hi, hix⟩ := List.mem_map.mp h
    rw [← hix]
    exact hd i (by have := List.mem_range.mp hi; omega)
  · rw [List.mem_singleton.mp h]
    exact hd 24 (by omega)

/-- C1 (amended): feeding any finite multiset of records with in-range tile
digits to the layer's distribution passes (fused tile-24 pass, then
redistribution on tiles 22..0) and reading the final buckets in
`loc = 0..24` order yields a permutation of the input that is sorted
lexicographically by the key `(tiles[0], ..., tiles[22], tiles[24])`.  The
position of tile 23 is not part of the key: the loop of `expround` keys its
rounds on `round - 1` for `round = 23..1`, so tile 23 is never used as a
digit, and the fused first pass supplies tile 24 as the least significant
digit instead. -/
theorem distributionPasses_perm_sorted (S : List compact_puzzle)
    (hdig : ∀ cp ∈ S, ∀ t, t < 25 → tileOf cp t < 25) :
    (distributionPasses S).Perm S ∧
      (distributionPasses S).Pairwise
        (fun a b => lexLe (keyVecA a) (keyVecA b)) := by
  obtain ⟨hperm, hsort⟩ := distributionPasses_spec S hdig
  refine ⟨hperm, ?_⟩
  apply List.Pairwise.imp_of_mem ?_ hsort
  intro a b ha hb hab
  have hda := hdig a (hperm.mem_iff.mp ha)
  have hdb := hdig b (hperm.mem_iff.mp hb)
  have hlen : (keyVecA a).length = (keyVecA b).length := by
    simp [keyVecA]
  have hval : valD (keyVecA a) ≤ valD (keyVecA b) := by
    rw [keyVecA_eq_dvec, keyVecA_eq_dvec, ← rkey_eq_valD, ← rkey_eq_valD]
    exact hab
  exact (valD_le_iff (keyVecA a) (keyVecA b) hlen
    (keyVecA_bound a hda) (keyVecA_bound b hdb)).mp hval

theorem distributionPasses_perm_sorted_witness :
    (∀ cp ∈ [pack_puzzle ⟨List.range 25⟩], ∀ t, t < 25 → tileOf cp t < 25) ∧
      ((distributionPasses [pack_puzzle ⟨List.range 25⟩]).Perm
          [pack_puzzle ⟨List.range 25⟩] ∧
        (distributionPasses [pack_puzzle ⟨List.range 25⟩]).Pairwise
          (fun a b => lexLe (keyVecA a) (keyVecA b))) := by
  have h : ∀ cp ∈ [pack_puzzle ⟨List.range 25⟩], ∀ t, t < 25 → tileOf cp t < 25 := by
    decide
  exact ⟨h, distributionPasses_perm_sorted _ h⟩

/-- C1 (counterexample): with the two valid records packing the identity
permutation and the identity with tiles 23 and 24 exchanged, the
distribution passes order the output by the location of tile 24, which
reverses the order the claimed key `(tiles[0], ..., tiles[23])` demands;
the claimed conjunction of permutation and sortedness fails. -/
theorem distributionPasses_claim_counterexample :
    ¬ ((distributionPasses [pack_puzzle ⟨List.range 25⟩,
            pack_puzzle ⟨List.range 23 ++ [24, 23]⟩]).Perm
          [pack_puzzle ⟨List.range 25⟩,
            pack_puzzle ⟨List.range 23 ++ [24, 23]⟩] ∧
        (distributionPasses [pack_puzzle ⟨List.range 25⟩,
            pack_puzzle ⟨List.range 23 ++ [24, 23]⟩]).Pairwise
          (fun a b => lexLe (keyVec a) (keyVec b))) := by
  decide

theorem testBit_notMoveMask (i : Nat) :
    Nat.testBit NOT_MOVE_MASK i = (decide (4 ≤ i) && decide (i < 64)) := by
  have h1 : NOT_MOVE_MASK = (2 ^ 60 - 1) <<< 4 := by
    rw [Nat.shiftLeft_eq]
    norm_num [NOT_MOVE_MASK]
  rw [h1, Nat.testBit_shiftLeft, Nat.testBit_two_pow_sub_one]
  by_cases h4 : 4 ≤ i
  · by_cases h64 : i < 64
    · simp [show i ≥ 4 from h4, h4, h64, show i - 4 < 60 from by omega]
    · simp [h64, show ¬(i - 4 < 60) from by omega]
  · simp [show ¬(i ≥ 4) from h4, show ¬(4 ≤ i) from h4]

theorem and_notMoveMask_eq_iff (x y : Nat) (hx : x < 2 ^ 64) (hy : y < 2 ^ 64) :
    x &&& NOT_MOVE_MASK = y &&& NOT_MOVE_MASK ↔ x / 16 = y / 16 := by
  constructor
  · intro h
    have h16 : x >>> 4 = y >>> 4 := by
      apply Nat.eq_of_testBit_eq
      intro i
      rw [Nat.testBit_shiftRight, Nat.testBit_shiftRight]
      by_cases hi : 4 + i < 64
      · have hb := congrArg (fun t => Nat.testBit t (4 + i)) h
        simp only [Nat.testBit_and, testBit_notMoveMask] at hb
        simpa [show 4 ≤ 4 + i from by omega, hi] using hb
      · rw [Nat.testBit_lt_two_pow
          (Nat.lt_of_lt_of_le hx (Nat.pow_le_pow_right (by omega) (by omega))),
          Nat.testBit_lt_two_pow
          (Nat.lt_of_lt_of_le hy (Nat.pow_le_pow_right (by omega) (by omega)))]
    rw [Nat.shiftRight_eq_div_pow, Nat.shiftRight_eq_div_pow] at h16
    simpa using h16
  · intro h
    have h16 : x >>> 4 = y >>> 4 := by
      rw [Nat.shiftRight_eq_div_pow, Nat.shiftRight_eq_div_pow]
      simpa using h
    apply Nat.eq_of_testBit_eq
    intro i
    rw [Nat.testBit_and, Nat.testBit_and, testBit_notMoveMask]
    by_cases h4 : 4 ≤ i
    · by_cases h64 : i < 64
      · have hxy : Nat.testBit x i = Nat.testBit y i := by
          have hc := congrArg (fun t => Nat.testBit t (i - 4)) h16
          simp only [Nat.testBit_shiftRight] at hc
          rwa [show 4 + (i - 4) = i from by omega] at hc
        rw [hxy]
      · simp [h64]
    · simp [h4]

theorem packbits_inj (ds : List Nat) : ∀ es : List Nat,
    ds.length = es.length → (∀ d ∈ ds, d < 32) → (∀ e ∈ es, e < 32) →
    packbits ds = packbits es → ds = es := by
  induction ds with
  | nil =>
    intro es hlen _ _ _
    exact (List.length_eq_zero.mp hlen.symm).symm
  | cons d ds' ih =>
    intro es hlen hds hes h
    cases es with
    | nil => simp at hlen
    | cons e es' =>
      simp only [List.length_cons] at hlen
      have hd := hds d (List.mem_cons_self d ds')
      have he := hes e (List.mem_cons_self e es')
      have hmod : d = e := by
        have hc : packbits (d :: ds') % 32 = packbits (e :: es') % 32 := by rw [h]
        show d = e
        have h1 : packbits (d :: ds') % 32 = d := by
          show (d + 32 * packbits ds') % 32 = d
          rw [Nat.add_mul_mod_self_left, Nat.mod_eq_of_lt hd]
        have h2 : packbits (e :: es') % 32 = e := by
          show (e + 32 * packbits es') % 32 = e
          rw [Nat.add_mul_mod_self_left, Nat.mod_eq_of_lt he]
        rw [h1, h2] at hc
        exact hc
      subst hmod
      have htail : packbits ds' = packbits es' := by
        have hc : packbits (d :: ds') / 32 = packbits (d :: es') / 32 := by rw [h]
        have h1 : packbits (d :: ds') / 32 = packbits ds' := by
          show (d + 32 * packbits ds') / 32 = packbits ds'
          rw [Nat.add_mul_div_left _ _ (by norm_num), Nat.div_eq_of_lt hd,
            Nat.zero_add]
        have h2 : packbits (d :: es') / 32 = packbits es' := by
          show (d + 32 * packbits es') / 32 = packbits es'
          rw [Nat.add_mul_div_left _ _ (by norm_num), Nat.div_eq_of_lt hd,
            Nat.zero_add]
        rw [h1, h2] at hc
        exact hc
      rw [ih es' (by omega)
        (fun x hx => hds x (List.mem_cons_of_mem _ hx))
        (fun x hx => hes x (List.mem_cons_of_mem _ hx)) htail]

theorem range_map_getD (f : Nat → Nat) (n i : Nat) (hi : i < n) :
    ((List.range n).map f).getD i 0 = f i := by
  simp [List.getD_eq_getElem?_getD, List.getElem?_range hi]

theorem valD_inj (ds es : List Nat) (hlen : ds.length = es.length)
    (hds : ∀ d ∈ ds, d < 25) (hes : ∀ e ∈ es, e < 25)
    (h : valD ds = valD es) : ds = es := by
  have h1 := (valD_le_iff ds es hlen hds hes).mp (Nat.le_of_eq h)
  have h2 := (valD_le_iff es ds hlen.symm hes hds).mp (Nat.le_of_eq h.symm)
  rcases h1 with h1 | h1
  · exact h1
  rcases h2 with h2 | h2
  · exact h2.symm
  exact (lex_asymm_nat _ _ h1 h2).elim

theorem valid_getD_lt (p : puzzle) (hv : ValidP p) (t : Nat) (ht : t < 25) :
    p.tiles.getD t 0 < 25 := by
  obtain ⟨hlen, hb, -⟩ := valid_tiles_facts p hv
  have htl : t < p.tiles.length := by omega
  have hget : p.tiles.getD t 0 = p.tiles[t] := by
    simp [List.getD_eq_getElem?_getD, List.getElem?_eq_getElem htl]
  rw [hget]
  exact hb _ (List.getElem_mem htl)

theorem pack_lo_lt (p : puzzle) (m : Nat) (hv : ValidP p) :
    (pack_puzzle_masked p m).lo < 2 ^ 64 := by
  obtain ⟨hlen, hb, -⟩ := valid_tiles_facts p hv
  show (m &&& MOVE_MASK) + 16 * packbits (p.tiles.take 12) < 2 ^ 64
  have h1 : m &&& MOVE_MASK < 16 := Nat.lt_succ_of_le Nat.and_le_right
  have h2 : packbits (p.tiles.take 12) < 32 ^ 12 := by
    have := packbits_lt (p.tiles.take 12)
      (fun x hx => Nat.lt_of_lt_of_le (hb x (List.mem_of_mem_take hx)) (by norm_num))
    rwa [List.length_take, hlen, show min 12 25 = 12 from rfl] at this
  have h3 : 16 * packbits (p.tiles.take 12) ≤ 16 * (32 ^ 12 - 1) :=
    Nat.mul_le_mul_left 16 (by omega)
  norm_num at h3 ⊢
  omega

theorem tileOf_congr (a b : compact_puzzle) (hhi : a.hi = b.hi)
    (hlo : a.lo / 16 = b.lo / 16) : ∀ t, t < 25 → tileOf a t = tileOf b t := by
  have hAt : ∀ t, t < 24 → tileAt a t = tileAt b t := by
    intro t ht
    unfold tileAt
    by_cases h12 : t < 12
    · rw [if_pos h12, if_pos h12]
      have hpow : (2 : Nat) ^ (4 + 5 * t) = 16 * 32 ^ t := by
        rw [Nat.pow_add, Nat.pow_mul]
      rw [hpow, ← Nat.div_div_eq_div_mul, ← Nat.div_div_eq_div_mul, hlo]
    · rw [if_neg h12, if_neg h12, hhi]
  intro t ht
  unfold tileOf
  by_cases h24 : t < 24
  · rw [if_pos h24, if_pos h24]
    exact hAt t h24
  · rw [if_neg h24, if_neg h24]
    have hmap : (List.range 24).map (tileAt a) = (List.range 24).map (tileAt b) :=
      List.map_congr_left (fun i hi => hAt i (List.mem_range.mp hi))
    rw [hmap]

theorem rkey_congr (a b : compact_puzzle)
    (h : ∀ t, t < 25 → tileOf a t = tileOf b t) :
    ∀ j, j ≤ 23 → rkey j a = rkey j b := by
  intro j
  induction j with
  | zero =>
    intro _
    show tileOf a 24 = tileOf b 24
    exact h 24 (by omega)
  | succ j ih =>
    intro hj
    show tileOf a (22 - j) * 25 ^ (j + 1) + rkey j a =
      tileOf b (22 - j) * 25 ^ (j + 1) + rkey j b
    rw [h (22 - j) (by omega), ih (by omega)]

theorem sameConfig_canonical_iff (a b : compact_puzzle)
    (ha : a.lo < 2 ^ 64) (hb : b.lo < 2 ^ 64) :
    sameConfig a b ↔ (a.hi = b.hi ∧ a.lo / 16 = b.lo / 16) := by
  unfold sameConfig
  rw [xor_and_eq_zero_iff, and_notMoveMask_eq_iff a.lo b.lo ha hb]

theorem sameConfig_iff_rkey23 (a b : compact_puzzle)
    (ha : ∃ p m, ValidP p ∧ a = pack_puzzle_masked p m)
    (hb : ∃ q m, ValidP q ∧ b = pack_puzzle_masked q m) :
    (sameConfig a b ↔ rkey 23 a = rkey 23 b) := by
  obtain ⟨p, mp, hvp, hap⟩ := ha
  obtain ⟨q, mq, hvq, hbq⟩ := hb
  subst hap hbq
  obtain ⟨hlenp, hbp, hsump⟩ := valid_tiles_facts p hvp
  obtain ⟨hlenq, hbq', hsumq⟩ := valid_tiles_facts q hvq
  have hloa := pack_lo_lt p mp hvp
  have hlob := pack_lo_lt q mq hvq
  have hdiga : ∀ t, t < 25 → tileOf (pack_puzzle_masked p mp) t < 25 := by
    intro t ht
    rw [tileOf_pack p mp t hvp ht]
    exact valid_getD_lt p hvp t ht
  have hdigb : ∀ t, t < 25 → tileOf (pack_puzzle_masked q mq) t < 25 := by
    intro t ht
    rw [tileOf_pack q mq t hvq ht]
    exact valid_getD_lt q hvq t ht
  constructor
  · intro hs
    obtain ⟨hhi, hlo⟩ := (sameConfig_canonical_iff _ _ hloa hlob).mp hs
    exact rkey_congr _ _ (tileOf_congr _ _ hhi hlo) 23 (Nat.le_refl 23)
  · intro hk
    have hdv : dvec 23 (pack_puzzle_masked p mp) = dvec 23 (pack_puzzle_masked q mq) :=
      valD_inj _ _ (by rw [dvec_length, dvec_length])
        (by rw [← keyVecA_eq_dvec]; exact keyVecA_bound _ hdiga)
        (by rw [← keyVecA_eq_dvec]; exact keyVecA_bound _ hdigb)
        (by rw [← rkey_eq_valD, ← rkey_eq_valD]; exact hk)
    have hvecA : keyVecA (pack_puzzle_masked p mp) = keyVecA (pack_puzzle_masked q mq) := by
      rw [keyVecA_eq_dvec, keyVecA_eq_dvec]
      exact hdv
    obtain ⟨hmap, h24s⟩ := List.append_inj hvecA (by simp)
    have htp : ∀ t, t < 25 → t ≠ 23 → p.tiles.getD t 0 = q.tiles.getD t 0 := by
      intro t ht h23
      by_cases ht23 : t < 23
      · have hc : ((List.range 23).map (tileOf (pack_puzzle_masked p mp))).getD t 0 =
            ((List.range 23).map (tileOf (pack_puzzle_masked q mq))).getD t 0 := by
          rw [hmap]
        rw [range_map_getD _ 23 t ht23, range_map_getD _ 23 t ht23] at hc
        rw [← tileOf_pack p mp t hvp ht, ← tileOf_pack q mq t hvq ht]
        exact hc
      · have ht24 : t = 24 := by omega
        subst ht24
        have hc : tileOf (pack_puzzle_masked p mp) 24 =
            tileOf (pack_puzzle_masked q mq) 24 := List.singleton_inj.mp h24s
        rw [← tileOf_pack p mp 24 hvp (by omega), ← tileOf_pack q mq 24 hvq (by omega)]
        exact hc
    have hsum25p : ((List.range 25).map (fun i => p.tiles.getD i 0)).sum = 300 := by
      rw [range_map_getD_sum p.tiles 25 (by omega),
        List.take_of_length_le (by omega), hsump]
    have hsum25q : ((List.range 25).map (fun i => q.tiles.getD i 0)).sum = 300 := by
      rw [range_map_getD_sum q.tiles 25 (by omega),
        List.take_of_length_le (by omega), hsumq]
    have hsplitsum : ∀ l : List Nat,
        ((List.range 25).map (fun i => l.getD i 0)).sum =
          ((List.range 23).map (fun i => l.getD i 0)).sum +
            l.getD 23 0 + l.getD 24 0 := by
      intro l
      rw [show (25 : Nat) = 24 + 1 from rfl, List.range_succ,
        show (24 : Nat) = 23 + 1 from rfl, List.range_succ]
      simp [List.sum_append]
      omega
    have hsum23eq : ((List.range 23).map (fun i => p.tiles.getD i 0)).sum =
        ((List.range 23).map (fun i => q.tiles.getD i 0)).sum := by
      apply congrArg List.sum
      apply List.map_congr_left
      intro i hi
      have hi23 := List.mem_range.mp hi
      exact htp i (by omega) (by omega)
    have h23 : p.tiles.getD 23 0 = q.tiles.getD 23 0 := by
      have hp' := hsum25p
      have hq' := hsum25q
      rw [hsplitsum] at hp' hq'
      have h24eq := htp 24 (by omega) (by omega)
      omega
    have hteq : p.tiles = q.tiles := by
      apply List.ext_getElem (by omega)
      intro i h1 h2
      have hi25 : i < 25 := by omega
      have hgd : p.tiles.getD i 0 = q.tiles.getD i 0 := by
        by_cases hi23 : i = 23
        · subst hi23; exact h23
        · exact htp i hi25 hi23
      have e1 : p.tiles.getD i 0 = p.tiles[i] := by
        simp [List.getD_eq_getElem?_getD, List.getElem?_eq_getElem h1]
      have e2 : q.tiles.getD i 0 = q.tiles[i] := by
        simp [List.getD_eq_getElem?_getD, List.getElem?_eq_getElem h2]
      rw [← e1, ← e2, hgd]
    apply (sameConfig_canonical_iff _ _ hloa hlob).mpr
    constructor
    · show packbits ((p.tiles.drop 12).take 12) = packbits ((q.tiles.drop 12).take 12)
      rw [hteq]
    · rw [lo_div_16, lo_div_16, hteq]

/-- C4: after the distribution passes of a layer complete, in the stream
obtained by reading the final bucket files in `loc = 0..24` order, all
records representing the same configuration (equal `hi` and `lo` equal
outside the mask bits) occupy adjacent positions.  The records of a layer
are the packed forms of well-formed puzzles, which the hypothesis states. -/
theorem distributionPasses_config_adjacent (S : List compact_puzzle)
    (hcan : ∀ cp ∈ S, ∃ p m, ValidP p ∧ cp = pack_puzzle_masked p m) :
    ∀ i j k : Nat, i ≤ j → j ≤ k → k < (distributionPasses S).length →
      sameConfig ((distributionPasses S).getD i ⟨0, 0⟩)
        ((distributionPasses S).getD k ⟨0, 0⟩) →
      sameConfig ((distributionPasses S).getD i ⟨0, 0⟩)
        ((distributionPasses S).getD j ⟨0, 0⟩) := by
  have hdig : ∀ cp ∈ S, ∀ t, t < 25 → tileOf cp t < 25 := by
    intro cp hcp t ht
    obtain ⟨p, m, hvp, hcpp⟩ := hcan cp hcp
    subst hcpp
    rw [tileOf_pack p m t hvp ht]
    exact valid_getD_lt p hvp t ht
  obtain ⟨hperm, hsort⟩ := distributionPasses_spec S hdig
  intro i j k hij hjk hk hik
  have hcan' : ∀ cp ∈ distributionPasses S,
      ∃ p m, ValidP p ∧ cp = pack_puzzle_masked p m :=
    fun cp hcp => hcan cp (hperm.mem_iff.mp hcp)
  have hkl : k < (distributionPasses S).length := hk
  have hjl : j < (distributionPasses S).length := by omega
  have hil : i < (distributionPasses S).length := by omega
  have egetD : ∀ n, (hn : n < (distributionPasses S).length) →
      (distributionPasses S).getD n ⟨0, 0⟩ = (distributionPasses S)[n] := by
    intro n hn
    simp [List.getD_eq_getElem?_getD, List.getElem?_eq_getElem hn]
  rw [egetD i hil, egetD k hkl] at hik
  rw [egetD i hil, egetD j hjl]
  have hci := hcan' _ (List.getElem_mem hil)
  have hcj := hcan' _ (List.getElem_mem hjl)
  have hck := hcan' _ (List.getElem_mem hkl)
  have hmono : ∀ m n, (hm : m < (distributionPasses S).length) →
      (hn : n < (distributionPasses S).length) → m ≤ n →
      rkey 23 (distributionPasses S)[m] ≤ rkey 23 (distributionPasses S)[n] := by
    intro m n hm hn hmn
    rcases Nat.eq_or_lt_of_le hmn with he | hl
    · subst he
      exact Nat.le_refl _
    · exact List.pairwise_iff_getElem.mp hsort m n hm hn hl
  have hkik : rkey 23 (distributionPasses S)[i] = rkey 23 (distributionPasses S)[k] :=
    (sameConfig_iff_rkey23 _ _ hci hck).mp hik
  have h1 := hmono i j hil hjl hij
  have h2 := hmono j k hjl hkl hjk
  exact (sameConfig_iff_rkey23 _ _ hci hcj).mpr (by omega)

theorem distributionPasses_config_adjacent_witness :
    0 < (distributionPasses [pack_puzzle ⟨List.range 25⟩]).length ∧
    sameConfig ((distributionPasses [pack_puzzle ⟨List.range 25⟩]).getD 0 ⟨0, 0⟩)
      ((distributionPasses [pack_puzzle ⟨List.range 25⟩]).getD 0 ⟨0, 0⟩) := by
  refine ⟨by decide, ?_⟩
  exact distributionPasses_config_adjacent [pack_puzzle ⟨List.range 25⟩]
    (fun cp hcp => ⟨⟨List.range 25⟩, 0, by decide, by
      simp only [List.mem_singleton] at hcp
      rw [hcp]
      rfl⟩)
    0 0 0 (Nat.le_refl 0) (Nat.le_refl 0) (by decide) (by decide)

theorem swap_swap (z d x : Nat) :
    (if (if x = d then z else if x = z then d else x) = z then (if z = d then z else d)
     else if (if x = d then z else if x = z then d else x) = (if z = d then z else d)
     then z else (if x = d then z else if x = z then d else x)) = x := by
  split_ifs <;> omega

theorem zero_location_move (p : puzzle) (d : Nat) (hne : p.tiles ≠ []) :
    zero_location (move p d) =
      if zero_location p = d then zero_location p else d := by
  cases hp : p.tiles with
  | nil => exact absurd hp hne
  | cons t0 rest =>
    have hz : zero_location p = t0 := by
      unfold zero_location
      rw [hp]
      rfl
    unfold zero_location move
    rw [hp, List.map_cons, List.getD_cons_zero, hz]
    rw [List.getD_cons_zero]
    by_cases h : t0 = d <;> simp [h]

theorem move_move_cancel (p : puzzle) (d : Nat) (hne : p.tiles ≠ []) :
    move (move p d) (zero_location p) = p := by
  have hz1 := zero_location_move p d hne
  have houter : move (move p d) (zero_location p) =
      ⟨(move p d).tiles.map (fun l =>
        if l = zero_location p then zero_location (move p d)
        else if l = zero_location (move p d) then zero_location p else l)⟩ := rfl
  have hinner : (move p d).tiles = p.tiles.map (fun l =>
      if l = d then zero_location p
      else if l = zero_location p then d else l) := rfl
  rw [houter, hz1, hinner, List.map_map]
  have hmapeq : ∀ x ∈ p.tiles,
      ((fun l => if l = zero_location p then
          (if zero_location p = d then zero_location p else d)
        else if l = (if zero_location p = d then zero_location p else d)
          then zero_location p else l) ∘
        (fun l => if l = d then zero_location p
          else if l = zero_location p then d else l)) x = x :=
    fun x _ => swap_swap (zero_location p) d x
  rw [List.map_congr_left hmapeq, List.map_id']

theorem move_valid (p : puzzle) (d : Nat) (hv : ValidP p) (hd : d < 25) :
    ValidP (move p d) := by
  obtain ⟨hlen, hb, -⟩ := valid_tiles_facts p hv
  have hz : zero_location p < 25 := valid_getD_lt p hv 0 (by omega)
  set z := zero_location p with hzdef
  set tau := fun l => if l = d then z else if l = z then d else l with htau
  have htauinj : Function.Injective tau := by
    intro a b hab
    simp only [htau] at hab
    split_ifs at hab <;> omega
  have htaulr : ∀ x, x < 25 → tau x < 25 := by
    intro x hx
    simp only [htau]
    split_ifs <;> omega
  have htauinv : ∀ x, tau (tau x) = x := by
    intro x
    simp only [htau]
    split_ifs <;> omega
  show (p.tiles.map tau).Perm (List.range 25)
  have h1 : (p.tiles.map tau).Perm ((List.range 25).map tau) := hv.map tau
  apply h1.trans
  apply List.perm_of_nodup_nodup_toFinset_eq
  · exact (List.nodup_range 25).map htauinj
  · exact List.nodup_range 25
  · apply Finset.ext
    intro x
    simp only [List.mem_toFinset, List.mem_map, List.mem_range]
    constructor
    · rintro ⟨y, hy, rfl⟩
      exact htaulr y hy
    · intro hx
      exact ⟨tau x, htaulr x hx, htauinv x⟩

/-- Loop of `expandpuzzle` (puzzledistext.c lines 109-117) with the mutated
puzzle threaded explicitly: for each move index `i`, a masked move is
skipped; otherwise the blank moves to `moves[i]`, the child is packed with
the mask argument `zloc` and appended to the bucket selected by the child's
`tiles[TILE_COUNT - 1]`, and the move is undone (`move(&p, zloc)`) before
the next iteration. -/
def expandGo (zloc movemask : Nat) :
    List Nat → Nat → puzzle → List (List compact_puzzle) →
      puzzle × List (List compact_puzzle)
  | [], _, p, fs => (p, fs)
  | mv :: rest, i, p, fs =>
    if movemask &&& (1 <<< i) ≠ 0 then expandGo zloc movemask rest (i + 1) p fs
    else
      let p1 := move p mv
      let fs1 := appendFile fs (p1.tiles.getD 24 0) (pack_puzzle_masked p1 zloc)
      expandGo zloc movemask rest (i + 1) (move p1 zloc) fs1

/-- The function `expandpuzzle` (puzzledistext.c lines 95-124) together with
the final state of the local puzzle.  The trailing `fwrite` block of the C
source (lines 119-123) references the undeclared identifiers `j` and
`cpfile` and cannot compile; it is dead or unfinished code and is omitted
here, leaving only the per-move `putpuzzle` loop. -/
def expandpuzzleFull (fs : List (List compact_puzzle)) (cp : compact_puzzle) :
    puzzle × List (List compact_puzzle) :=
  let p := unpack_puzzle cp
  let zloc := zero_location p
  expandGo zloc (move_mask cp) (get_moves zloc) 0 p fs

/-- Bucket contents produced by `expandpuzzle`. -/
def expandpuzzle (fs : List (List compact_puzzle)) (cp : compact_puzzle) :
    List (List compact_puzzle) :=
  (expandpuzzleFull fs cp).2

/-- Child puzzles generated from `p` for the move list suffix starting at
move index `i`: one child per unmasked move index, none for masked ones. -/
def childrenFrom (zloc movemask : Nat) (p : puzzle) :
    List Nat → Nat → List puzzle
  | [], _ => []
  | mv :: rest, i =>
    if movemask &&& (1 <<< i) ≠ 0 then childrenFrom zloc movemask p rest (i + 1)
    else move p mv :: childrenFrom zloc movemask p rest (i + 1)

/-- The children of one compact puzzle: one per unmasked move of the blank. -/
def childPuzzles (cp : compact_puzzle) : List puzzle :=
  childrenFrom (zero_location (unpack_puzzle cp)) (move_mask cp)
    (unpack_puzzle cp) (get_moves (zero_location (unpack_puzzle cp))) 0

theorem get_moves_lt (zloc : Nat) (hz : zloc < 25) :
    ∀ mv ∈ get_moves zloc, mv < 25 := by
  intro mv hmv
  unfold get_moves at hmv
  simp only [List.mem_append] at hmv
  rcases hmv with ((h | h) | h) | h
  all_goals split_ifs at h with hc
  all_goals simp only [List.mem_singleton, List.not_mem_nil] at h
  all_goals omega

theorem childrenFrom_length (zloc movemask : Nat) (p : puzzle) :
    ∀ (moves : List Nat) (i : Nat),
    (childrenFrom zloc movemask p moves i).length =
      ((List.range moves.length).filter
        (fun j => movemask &&& (1 <<< (j + i)) == 0)).length := by
  intro moves
  induction moves with
  | nil => intro i; rfl
  | cons mv rest ih =>
    intro i
    have hstep : (List.filter (fun j => movemask &&& 1 <<< (j + (i + 1)) == 0)
          (List.range rest.length)).length =
        (List.filter ((fun j => movemask &&& 1 <<< (j + i) == 0) ∘ Nat.succ)
          (List.range rest.length)).length := by
      apply congrArg List.length
      apply List.filter_congr
      intro j _
      show (movemask &&& 1 <<< (j + (i + 1)) == 0) =
        (movemask &&& 1 <<< (Nat.succ j + i) == 0)
      rw [show j + (i + 1) = Nat.succ j + i from by omega]
    rw [show (mv :: rest).length = rest.length + 1 from rfl,
      List.range_succ_eq_map, List.filter_cons]
    by_cases hm : movemask &&& (1 <<< i) = 0
    · rw [show childrenFrom zloc movemask p (mv :: rest) i =
          move p mv :: childrenFrom zloc movemask p rest (i + 1) from by
        rw [childrenFrom, if_neg (by simp [hm])]]
      rw [if_pos (by simpa using hm)]
      simp only [List.length_cons, ih (i + 1), List.filter_map, List.length_map]
      rw [hstep]
    · rw [show childrenFrom zloc movemask p (mv :: rest) i =
          childrenFrom zloc movemask p rest (i + 1) from by
        rw [childrenFrom, if_pos hm]]
      rw [if_neg (by simpa using hm)]
      simp only [ih (i + 1), List.filter_map, List.length_map]
      rw [hstep]

theorem expandGo_spec (zloc movemask : Nat) :
    ∀ (moves : List Nat) (i : Nat) (p : puzzle) (fs : List (List compact_puzzle)),
    zero_location p = zloc → ValidP p → (∀ mv ∈ moves, mv < 25) →
    fs.length = 25 →
    (expandGo zloc movemask moves i p fs).1 = p ∧
    ∀ k, ((expandGo zloc movemask moves i p fs).2).getD k [] =
      fs.getD k [] ++
        ((childrenFrom zloc movemask p moves i).filter
          (fun c => c.tiles.getD 24 0 == k)).map
          (fun c => pack_puzzle_masked c zloc) := by
  intro moves
  induction moves with
  | nil =>
    intro i p fs _ _ _ _
    exact ⟨rfl, fun k => by simp [expandGo, childrenFrom]⟩
  | cons mv rest ih =>
    intro i p fs hzp hv hmv hlen
    have hne : p.tiles ≠ [] := by
      obtain ⟨hl, -, -⟩ := valid_tiles_facts p hv
      intro hnil
      rw [hnil] at hl
      simp at hl
    by_cases hm : movemask &&& (1 <<< i) = 0
    · have hmv25 := hmv mv (List.mem_cons_self mv rest)
      have hv1 : ValidP (move p mv) := move_valid p mv hv hmv25
      have hrest : move (move p mv) zloc = p := by
        rw [← hzp]
        exact move_move_cancel p mv hne
      have hb24 : (move p mv).tiles.getD 24 0 < 25 :=
        valid_getD_lt _ hv1 24 (by omega)
      have hexp : expandGo zloc movemask (mv :: rest) i p fs =
          expandGo zloc movemask rest (i + 1) (move (move p mv) zloc)
            (appendFile fs ((move p mv).tiles.getD 24 0)
              (pack_puzzle_masked (move p mv) zloc)) := by
        rw [expandGo, if_neg (by simp [hm])]
      rw [hexp, hrest]
      obtain ⟨h1, h2⟩ := ih (i + 1) p
        (appendFile fs ((move p mv).tiles.getD 24 0)
          (pack_puzzle_masked (move p mv) zloc)) hzp hv
        (fun x hx => hmv x (List.mem_cons_of_mem _ hx))
        (by rw [appendFile_length, hlen])
      refine ⟨h1, ?_⟩
      intro k
      rw [h2 k, appendFile_getD fs _ k _ (by rw [hlen]; exact hb24)]
      rw [show childrenFrom zloc movemask p (mv :: rest) i =
          move p mv :: childrenFrom zloc movemask p rest (i + 1) from by
        rw [childrenFrom, if_neg (by simp [hm])]]
      rw [List.filter_cons]
      by_cases hk : (move p mv).tiles.getD 24 0 = k
      · rw [if_pos hk, if_pos (by simpa using hk)]
        simp [List.append_assoc]
      · rw [if_neg hk, if_neg (by simpa using hk)]
    · have hexp : expandGo zloc movemask (mv :: rest) i p fs =
          expandGo zloc movemask rest (i + 1) p fs := by
        rw [expandGo, if_pos hm]
      rw [hexp]
      obtain ⟨h1, h2⟩ := ih (i + 1) p fs hzp hv
        (fun x hx => hmv x (List.mem_cons_of_mem _ hx)) hlen
      refine ⟨h1, ?_⟩
      intro k
      rw [h2 k]
      rw [show childrenFrom zloc movemask p (mv :: rest) i =
          childrenFrom zloc movemask p rest (i + 1) from by
        rw [childrenFrom, if_pos hm]]

/-- C3: for a record unpacking to a well-formed puzzle, the fused expansion
step produces exactly one child per move index whose bit is clear in the
record's move mask (masked moves produce nothing), each child being the
puzzle with the blank moved to that move's cell; each child record is
appended to the bucket indexed by the child's `tiles[TILE_COUNT - 1]`, and
the parent puzzle is restored (the threaded puzzle returns to its initial
value) before the next move is tried. -/
theorem expandpuzzle_children (fs : List (List compact_puzzle))
    (cp : compact_puzzle) (hv : ValidP (unpack_puzzle cp))
    (hlen : fs.length = 25) :
    (expandpuzzleFull fs cp).1 = unpack_puzzle cp ∧
    (childPuzzles cp).length =
      ((List.range (move_count (zero_location (unpack_puzzle cp)))).filter
        (fun i => move_mask cp &&& (1 <<< i) == 0)).length ∧
    ∀ k, (expandpuzzle fs cp).getD k [] =
      fs.getD k [] ++
        ((childPuzzles cp).filter (fun c => c.tiles.getD 24 0 == k)).map
          (fun c => pack_puzzle_masked c (zero_location (unpack_puzzle cp))) := by
  have hz : zero_location (unpack_puzzle cp) < 25 :=
    valid_getD_lt _ hv 0 (by omega)
  obtain ⟨h1, h2⟩ := expandGo_spec (zero_location (unpack_puzzle cp))
    (move_mask cp) (get_moves (zero_location (unpack_puzzle cp))) 0
    (unpack_puzzle cp) fs rfl hv (get_moves_lt _ hz) hlen
  refine ⟨h1, ?_, h2⟩
  rw [childPuzzles, childrenFrom_length]
  apply congrArg List.length
  apply List.filter_congr
  intro j _
  rw [Nat.add_zero]

theorem expandpuzzle_children_witness :
    ValidP (unpack_puzzle (pack_puzzle ⟨List.range 25⟩)) ∧
    (expandpuzzleFull emptyFiles (pack_puzzle ⟨List.range 25⟩)).1 =
      unpack_puzzle (pack_puzzle ⟨List.range 25⟩) := by
  have hv : ValidP (unpack_puzzle (pack_puzzle ⟨List.range 25⟩)) := by decide
  exact ⟨hv, (expandpuzzle_children emptyFiles _ hv (by decide)).1⟩

/-- Result of one C library call that can fail. -/
inductive Outcome where
  | ok
  | fail
deriving DecidableEq

/-- Result of one fread of a record: a record, end of file, or an error. -/
inductive ReadOutcome where
  | record (cp : compact_puzzle)
  | eof
  | err
deriving DecidableEq

/-- Error behaviour of `getpuzzle` (puzzledistext.c lines 58-73): a short
read with `ferror` set prints a perror diagnostic and exits nonzero,
modelled as an error result; otherwise the record or end of file. -/
def getpuzzleE : ReadOutcome → Except String (Option compact_puzzle)
  | .record cp => .ok (some cp)
  | .eof => .ok none
  | .err => .error "getpuzzle"

/-- Error behaviour of `putpuzzle` (lines 79-89): a short write prints a
perror diagnostic and exits nonzero. -/
def putpuzzleE : Outcome → Except String Unit
  | .ok => .ok ()
  | .fail => .error "putpuzzle"

/-- Error behaviour of `makerdxfiles` (lines 172-186): the first fopen that
returns NULL prints a perror diagnostic naming the path and exits
nonzero. -/
def makerdxfilesE : List Outcome → Except String Unit
  | [] => .ok ()
  | .ok :: rest => makerdxfilesE rest
  | .fail :: _ => .error "fopen"

/-- Error behaviour of `removerdxfile` (lines 192-199): the return value of
`remove(pathbuf)` is discarded, so a failing unlink is silently ignored and
the function always returns normally. -/
def removerdxfile (_r : Outcome) : Except String Unit := Except.ok ()

/-- Error behaviour of the `fclose(oldrdxfiles[loc])` and
`fclose(rdxfiles[loc])` calls in `expround` (lines 225 and 232): their
return values are discarded, so a failing close is silently ignored. -/
def exproundFclose (_r : Outcome) : Except String Unit := Except.ok ()

/-- The function `expround` (puzzledistext.c lines 208-235): expand every
input record into the round-23 buckets grouped by the location of tile 24,
redistribute for rounds 23..1 keyed on tiles 22..0, then coalesce each
final bucket into the output stream in `loc = 0..24` order. -/
def expround (infile : List compact_puzzle) : List compact_puzzle :=
  ((distRounds 23 (infile.foldl expandpuzzle emptyFiles)).map coalesce).flatten

/-- Modelled from the spec: `cps_round` (declared in compact.h, which is
not among the sources) computes one BFS layer from the previous one; the
spec describes it as the expand, sort and coalesce pipeline that `expround`
implements. -/
def cps_round (old : List compact_puzzle) : List compact_puzzle :=
  expround old

/-- Modelled from the spec: the solved puzzle has tile `i` on cell `i`
with the blank on corner cell 0. -/
def solved_puzzle : puzzle := ⟨List.range 25⟩

/-- Layer streams of the driver: layer 0 holds the packed solved puzzle
with mask zero (lines 281-283); each further layer is one `cps_round` of
the previous one (line 301). -/
def layerF : Nat → List compact_puzzle
  | 0 => [pack_puzzle solved_puzzle]
  | n + 1 => cps_round (layerF n)

/-- The driver loop of `main` (lines 244-310): one size line for layer 0 and
one per layer `i = 1..limit`; the loop runs unconditionally to `limit` (it
contains no empty-layer check), and `main` then falls off its end, which
returns exit status 0 under C99.  The pair holds the printed layer sizes
and the exit status. -/
def mainRun (limit : Nat) : List Nat × Nat :=
  ((List.range (limit + 1)).map (fun i => (layerF i).length), 0)

/-- Argument handling of `main` (lines 253-277): an unknown option or a
positional-argument count different from one calls `usage`, which exits
EXIT_FAILURE. -/
def mainArgs (badopt : Bool) (npositional : Nat) : Except String Unit :=
  if badopt then Except.error "usage"
  else if npositional ≠ 1 then Except.error "usage"
  else Except.ok ()

/-- C7 (amended): the driver computes exactly `limit` layers beyond layer 0
(hence at most `limit`; there is no early exit on an empty layer) and
returns exit status 0; argument errors and read/write failures exit nonzero
with a diagnostic, while close failures inside `expround` are ignored. -/
theorem main_driver_spec (limit : Nat) :
    (mainRun limit).1.length = limit + 1 ∧
    (mainRun limit).2 = 0 ∧
    (∀ b n, (b = true ∨ n ≠ 1) → ∃ e, mainArgs b n = Except.error e) ∧
    mainArgs false 1 = Except.ok () ∧
    (∃ e, getpuzzleE ReadOutcome.err = Except.error e) ∧
    (∃ e, putpuzzleE Outcome.fail = Except.error e) ∧
    (∀ r, exproundFclose r = Except.ok ()) := by
  refine ⟨by simp [mainRun], rfl, ?_, rfl,
    ⟨"getpuzzle", rfl⟩, ⟨"putpuzzle", rfl⟩, fun r => rfl⟩
  intro b n h
  rcases h with hb | hn
  · subst hb
    exact ⟨"usage", rfl⟩
  · cases b
    · exact ⟨"usage", by simp [mainArgs, hn]⟩
    · exact ⟨"usage", rfl⟩

theorem main_driver_spec_witness :
    (mainRun 2).1.length = 3 ∧ ∃ e, mainArgs true 1 = Except.error e := by
  have h := main_driver_spec 2
  exact ⟨h.1, h.2.2.1 true 1 (Or.inl rfl)⟩

/-- C7 (counterexample): a failing `fclose` on a bucket file is an I/O
error, yet `expround` discards the `fclose` return value (line 225), so the
program does not exit nonzero with a diagnostic on it. -/
theorem main_driver_claim_counterexample :
    ¬ ∃ e, exproundFclose Outcome.fail = Except.error e := by
  rintro ⟨e, h⟩
  simp [exproundFclose] at h

/-- C8 (amended): failures of fopen, fread and fwrite terminate the program
with a perror-style diagnostic, modelled as an error result; the return
values of `remove` and `fclose` are discarded, so unlink and close failures
are silently ignored rather than fatal. -/
theorem io_failure_handling :
    (∃ e, getpuzzleE ReadOutcome.err = Except.error e) ∧
    (∃ e, putpuzzleE Outcome.fail = Except.error e) ∧
    (∀ rs, Outcome.fail ∈ rs → ∃ e, makerdxfilesE rs = Except.error e) ∧
    (∀ r, removerdxfile r = Except.ok ()) ∧
    (∀ r, exproundFclose r = Except.ok ()) := by
  refine ⟨⟨"getpuzzle", rfl⟩, ⟨"putpuzzle", rfl⟩, ?_, fun r => rfl, fun r => rfl⟩
  intro rs
  induction rs with
  | nil =>
    intro hmem
    cases hmem
  | cons r rest ih =>
    intro hmem
    cases r with
    | ok =>
      have hrest : Outcome.fail ∈ rest := by
        cases hmem with
        | tail _ h => exact h
      exact ih hrest
    | fail => exact ⟨"fopen", rfl⟩

theorem io_failure_handling_witness :
    Outcome.fail ∈ [Outcome.ok, Outcome.fail] ∧
      ∃ e, makerdxfilesE [Outcome.ok, Outcome.fail] = Except.error e := by
  have h := io_failure_handling
  exact ⟨by decide, h.2.2.1 [Outcome.ok, Outcome.fail] (by decide)⟩

/-- C8 (counterexample): a failing unlink does not terminate the program:
`removerdxfile` discards the result of `remove(pathbuf)` (line 198) and
returns normally, producing no diagnostic and no nonzero exit. -/
theorem removerdxfile_ignores_failure :
    ¬ ∃ e, removerdxfile Outcome.fail = Except.error e := by
  rintro ⟨e, h⟩
  simp [removerdxfile] at h

/-- A PDB address (`struct index` of index.h, which is not among the
sources): map rank, permutation index and equivalence-class index. -/
structure pdb_index where
  maprank : Nat
  pidx : Nat
  eqidx : Nat
deriving DecidableEq

/-- The `struct patterndb` of pdb.h: one byte subtable per map rank.  The
`aux` member is reduced to what entry addressing reads from it: whether the
tile set contains the zero tile (`tileset_has(pdb->aux.ts, ZERO_TILE)`) and
the per-maprank equivalence-class count (`aux.idxt[maprank].n_eqclass`);
`index_aux` itself is declared in index.h, which is not among the
sources. -/
structure patterndb where
  hasZero : Bool
  n_eqclass : List Nat
  tables : List (List Nat)
deriving DecidableEq

/-- Sentinel for a PDB entry not yet filled in (pdb.h line 30). -/
def UNREACHED : Nat := 255

/-- The function `pdb_entry_pointer` (pdb.h lines 66-74) as a flat offset
into the maprank's subtable. -/
def pdb_entry_offset (pdb : patterndb) (idx : pdb_index) : Nat :=
  if pdb.hasZero then
    idx.pidx * pdb.n_eqclass.getD idx.maprank 0 + idx.eqidx
  else idx.pidx

/-- The function `pdb_lookup` (pdb.h lines 80-84). -/
def pdb_lookup (pdb : patterndb) (idx : pdb_index) : Nat :=
  (pdb.tables.getD idx.maprank []).getD (pdb_entry_offset pdb idx) 0

/-- The function `pdb_conditional_update` (pdb.h lines 109-116): `unsigned
char exp = expected` truncates the expectation to a byte, the
compare-exchange succeeds exactly when the entry equals it, storing
`desired` truncated to a byte, and returns 1; otherwise it returns 0 and
the table is unchanged.  The atomic read-modify-write is modelled as one
sequential step. -/
def pdb_conditional_update (pdb : patterndb) (idx : pdb_index)
    (expected desired : Nat) : patterndb × Nat :=
  if pdb_lookup pdb idx = expected % 256 then
    (⟨pdb.hasZero, pdb.n_eqclass,
      pdb.tables.set idx.maprank
        ((pdb.tables.getD idx.maprank []).set (pdb_entry_offset pdb idx)
          (desired % 256))⟩, 1)
  else (pdb, 0)

theorem pdb_lookup_after_set (pdb : patterndb) (idx : pdb_index) (v : Nat)
    (hmr : idx.maprank < pdb.tables.length)
    (hoff : pdb_entry_offset pdb idx <
      (pdb.tables.getD idx.maprank []).length) :
    pdb_lookup ⟨pdb.hasZero, pdb.n_eqclass,
      pdb.tables.set idx.maprank
        ((pdb.tables.getD idx.maprank []).set (pdb_entry_offset pdb idx) v)⟩
      idx = v := by
  unfold pdb_lookup
  have hoffeq : pdb_entry_offset ⟨pdb.hasZero, pdb.n_eqclass,
      pdb.tables.set idx.maprank
        ((pdb.tables.getD idx.maprank []).set (pdb_entry_offset pdb idx) v)⟩
      idx = pdb_entry_offset pdb idx := rfl
  rw [hoffeq]
  have h1 : ((pdb.tables.set idx.maprank
      ((pdb.tables.getD idx.maprank []).set (pdb_entry_offset pdb idx) v)
        : List (List Nat)).getD idx.maprank []) =
      (pdb.tables.getD idx.maprank []).set (pdb_entry_offset pdb idx) v := by
    simp [List.getD_eq_getElem?_getD, List.getElem?_set_self hmr]
  show ((pdb.tables.set idx.maprank _).getD idx.maprank []).getD _ 0 = v
  rw [h1]
  have hoff' : pdb_entry_offset pdb idx <
      ((pdb.tables[idx.maprank]?.getD [] : List Nat)).length := by
    simpa [List.getD_eq_getElem?_getD] using hoff
  simp [List.getD_eq_getElem?_getD, List.getElem?_set_self hoff']

/-- C9: `pdb_conditional_update(idx, expected, desired)` compares the PDB
byte at `idx` with `expected` and, exactly when they are equal, sets it to
`desired` and returns 1; otherwise it returns 0 and leaves the table
unchanged.  Starting from a byte equal to `UNREACHED` and a layer distance
`desired ≤ 254` (distances occupy `[0, 254]`; `UNREACHED = 255` is the
sentinel), the call with `expected = UNREACHED` succeeds, and afterwards
every further such call returns 0 and leaves the table unchanged. -/
theorem pdb_conditional_update_spec (pdb : patterndb) (idx : pdb_index)
    (expected desired : Nat)
    (hmr : idx.maprank < pdb.tables.length)
    (hoff : pdb_entry_offset pdb idx <
      (pdb.tables.getD idx.maprank []).length) :
    ((pdb_conditional_update pdb idx expected desired).2 = 1 ↔
      pdb_lookup pdb idx = expected % 256) ∧
    ((pdb_conditional_update pdb idx expected desired).2 = 1 →
      pdb_lookup (pdb_conditional_update pdb idx expected desired).1 idx =
        desired % 256) ∧
    ((pdb_conditional_update pdb idx expected desired).2 ≠ 1 →
      pdb_conditional_update pdb idx expected desired = (pdb, 0)) ∧
    (pdb_lookup pdb idx = UNREACHED → desired ≤ 254 →
      (pdb_conditional_update pdb idx UNREACHED desired).2 = 1 ∧
      ∀ d2, pdb_conditional_update
          (pdb_conditional_update pdb idx UNREACHED desired).1 idx
          UNREACHED d2 =
        ((pdb_conditional_update pdb idx UNREACHED desired).1, 0)) := by
  refine ⟨?_, ?_, ?_, ?_⟩
  · constructor
    · intro h
      by_contra hne
      rw [pdb_conditional_update, if_neg hne] at h
      simp at h
    · intro h
      rw [pdb_conditional_update, if_pos h]
  · intro h
    have hcond : pdb_lookup pdb idx = expected % 256 := by
      by_contra hne
      rw [pdb_conditional_update, if_neg hne] at h
      simp at h
    rw [pdb_conditional_update, if_pos hcond]
    exact pdb_lookup_after_set pdb idx (desired % 256) hmr hoff
  · intro h
    have hcond : ¬ pdb_lookup pdb idx = expected % 256 := by
      intro hc
      apply h
      rw [pdb_conditional_update, if_pos hc]
    rw [pdb_conditional_update, if_neg hcond]
  · intro hun hd
    have hcond : pdb_lookup pdb idx = UNREACHED % 256 := by
      rw [hun]
      rfl
    have h1 : (pdb_conditional_update pdb idx UNREACHED desired).2 = 1 := by
      rw [pdb_conditional_update, if_pos hcond]
    refine ⟨h1, ?_⟩
    intro d2
    have hafter : pdb_lookup (pdb_conditional_update pdb idx UNREACHED desired).1
        idx = desired % 256 := by
      rw [pdb_conditional_update, if_pos hcond]
      exact pdb_lookup_after_set pdb idx (desired % 256) hmr hoff
    have hne : ¬ pdb_lookup (pdb_conditional_update pdb idx UNREACHED desired).1
        idx = UNREACHED % 256 := by
      rw [hafter]
      have : desired % 256 = desired := Nat.mod_eq_of_lt (by omega)
      rw [this]
      show ¬ desired = UNREACHED % 256
      unfold UNREACHED
      omega
    rw [pdb_conditional_update, if_neg hne]

theorem pdb_conditional_update_spec_witness :
    ((0 : Nat) < (patterndb.mk true [1] [[255]]).tables.length) ∧
    ((pdb_conditional_update ⟨true, [1], [[255]]⟩ ⟨0, 0, 0⟩ 255 7).2 = 1 ↔
      pdb_lookup ⟨true, [1], [[255]]⟩ ⟨0, 0, 0⟩ = 255 % 256) ∧
    ((pdb_conditional_update ⟨true, [1], [[255]]⟩ ⟨0, 0, 0⟩ 255 7).2 = 1 →
      pdb_lookup (pdb_conditional_update ⟨true, [1], [[255]]⟩ ⟨0, 0, 0⟩
        255 7).1 ⟨0, 0, 0⟩ = 7 % 256) := by
  have h := pdb_conditional_update_spec ⟨true, [1], [[255]]⟩ ⟨0, 0, 0⟩ 255 7
    (by decide) (by decide)
  exact ⟨by decide, h.1, h.2.1⟩
